import Mathlib

/-!
# Minimax player for 4x4 Othello (`assignment2/MinimaxPlayer.cpp`)

A shallow embedding of the member functions of `MinimaxPlayer`
(`getUtility`, `getSuccessors`, `minimumValue`, `maximumValue`, `get_move`)
and theorems about them.

Conventions of the embedding.

* The class `OthelloBoard` is declared outside `MinimaxPlayer.cpp`.  The position
  it stores (cells and the two registered symbols) is an arbitrary type `G`, and the
  methods the player calls on it are the fields of `BoardOps G`.  The origin tags
  read and written with `getRow`, `getColumn`, `setRow`, `setColumn` are two plain
  `int` members next to the position.
* `int` is `Int`.  `count_score` yields a count (`Nat`), so the subtraction in
  `getUtility` cannot leave the range of `int`.
* `int &row, int &column` are passed in and handed back: a call returns a `Ret`
  holding the returned `int` and the final contents of both slots.
* The recursion of `minimumValue` has no depth bound in the source.  The embedding
  recurses on a call-depth budget (`fuel`); `none` means the budget ran out.
-/

namespace Minimax

/-- The methods of the `OthelloBoard` collaborator used by `MinimaxPlayer`, as
functions on the stored position.  `is_legal_move` and `play_move` take the
arguments in the order of the calls in `getSuccessors`. -/
structure BoardOps (G : Type) where
  get_p1_symbol : G → Char
  get_p2_symbol : G → Char
  is_legal_move : G → Int → Int → Char → Bool
  play_move : G → Int → Int → Char → G
  count_score : G → Char → Nat

/-- An `OthelloBoard` object: the position and the origin tags. -/
structure OthelloBoard (G : Type) where
  grid : G
  row : Int
  column : Int

/-- The agent: `Player::symbol`. -/
structure MinimaxPlayer where
  symbol : Char
deriving DecidableEq

/-- What a call of `minimumValue` or `maximumValue` leaves behind: the returned
`int` and the contents of the reference parameters `row` and `column`. -/
structure Ret where
  value : Int
  row : Int
  column : Int
deriving DecidableEq

variable {G : Type}

def OthelloBoard.getRow (b : OthelloBoard G) : Int := b.row

def OthelloBoard.getColumn (b : OthelloBoard G) : Int := b.column

def OthelloBoard.setRow (b : OthelloBoard G) (r : Int) : OthelloBoard G :=
  { b with row := r }

def OthelloBoard.setColumn (b : OthelloBoard G) (c : Int) : OthelloBoard G :=
  { b with column := c }

/-- The method call `b->play_move(i, j, s)` on an object. -/
def OthelloBoard.play (ops : BoardOps G) (b : OthelloBoard G) (i j : Int) (s : Char) :
    OthelloBoard G :=
  { b with grid := ops.play_move b.grid i j s }

/-- `MinimaxPlayer::getUtility` (lines 32-34). -/
def getUtility (ops : BoardOps G) (_self : MinimaxPlayer) (board : OthelloBoard G) : Int :=
  (ops.count_score board.grid (ops.get_p1_symbol board.grid) : Int)
    - (ops.count_score board.grid (ops.get_p2_symbol board.grid) : Int)

/-- `int boardDimensions = 4;` (line 44). -/
def boardDimensions : Nat := 4

/-- `MinimaxPlayer::getSuccessors` (lines 42-65): the two nested `for` loops, each
legal cell pushing a played and tagged copy of `board` to the back. -/
def getSuccessors (ops : BoardOps G) (self : MinimaxPlayer) (playerSymbol : Char)
    (board : OthelloBoard G) : List (OthelloBoard G) :=
  (List.range boardDimensions).foldl
    (fun boardVector (i : Nat) =>
      (List.range boardDimensions).foldl
        (fun boardVector (j : Nat) =>
          if ops.is_legal_move board.grid (i : Int) (j : Int) playerSymbol = true then
            boardVector ++
              [((board.play ops (i : Int) (j : Int) self.symbol).setColumn (i : Int)).setRow
                (j : Int)]
          else boardVector)
        boardVector)
    []

/-- The `for` loop of `minimumValue` (lines 96-102).  `call r c b` stands for
`minimumValue(row, column, playerSymbol, b)` entered with slot contents `r`, `c`.
The five `Int`s are the slots `row`, `column` and the locals `minimumRow`,
`minimumColumn`, `theMin`. -/
def minimumLoop (call : Int → Int → OthelloBoard G → Option Ret) :
    List (OthelloBoard G) → Int → Int → Int → Int → Int →
      Option (Int × Int × Int × Int × Int)
  | [], row, column, minimumRow, minimumColumn, theMin =>
    some (row, column, minimumRow, minimumColumn, theMin)
  | child :: rest, row, column, minimumRow, minimumColumn, theMin =>
    match call row column child with
    | none => none
    | some r1 =>
      if r1.value > theMin then
        match call r1.row r1.column child with
        | none => none
        | some r2 =>
          minimumLoop call rest r2.row r2.column child.getRow child.getColumn r2.value
      else minimumLoop call rest r1.row r1.column minimumRow minimumColumn theMin

/-- `MinimaxPlayer::minimumValue` (lines 75-107). -/
def minimumValue (ops : BoardOps G) (self : MinimaxPlayer) :
    Nat → Int → Int → Char → OthelloBoard G → Option Ret
  | 0, _, _, _, _ => none
  | fuel + 1, row, column, playerSymbol, board =>
    let boardVector : List (OthelloBoard G) := []
    let boardVector :=
      if playerSymbol = 'X' then getSuccessors ops self 'X' board else boardVector
    let boardVector :=
      if playerSymbol = 'O' then getSuccessors ops self 'O' board else boardVector
    if boardVector.length = 0 then some ⟨getUtility ops self board, row, column⟩
    else
      match minimumLoop (fun r c b => minimumValue ops self fuel r c playerSymbol b)
          boardVector row column 0 0 32767 with
      | none => none
      | some (_, _, minimumRow, _, theMin) => some ⟨theMin, minimumRow, minimumRow⟩

/-- The `for` loop of `maximumValue` (lines 138-144); `call` is again
`minimumValue`.  The five `Int`s are `row`, `column`, `maximumRow`, `maximumColumn`,
`theMax`. -/
def maximumLoop (call : Int → Int → OthelloBoard G → Option Ret) :
    List (OthelloBoard G) → Int → Int → Int → Int → Int →
      Option (Int × Int × Int × Int × Int)
  | [], row, column, maximumRow, maximumColumn, theMax =>
    some (row, column, maximumRow, maximumColumn, theMax)
  | child :: rest, row, column, maximumRow, maximumColumn, theMax =>
    match call row column child with
    | none => none
    | some r1 =>
      if r1.value > theMax then
        match call r1.row r1.column child with
        | none => none
        | some r2 =>
          maximumLoop call rest r2.row r2.column child.getRow child.getColumn r2.value
      else maximumLoop call rest r1.row r1.column maximumRow maximumColumn theMax

/-- `MinimaxPlayer::maximumValue` (lines 117-149). -/
def maximumValue (ops : BoardOps G) (self : MinimaxPlayer) :
    Nat → Int → Int → Char → OthelloBoard G → Option Ret
  | 0, _, _, _, _ => none
  | fuel + 1, row, column, playerSymbol, board =>
    let boardVector : List (OthelloBoard G) := []
    let boardVector :=
      if playerSymbol = 'X' then getSuccessors ops self 'X' board else boardVector
    let boardVector :=
      if playerSymbol = 'O' then getSuccessors ops self 'O' board else boardVector
    if boardVector.length = 0 then some ⟨getUtility ops self board, row, column⟩
    else
      match maximumLoop (fun r c b => minimumValue ops self fuel r c playerSymbol b)
          boardVector row column 0 0 (-32767) with
      | none => none
      | some (_, _, maximumRow, maximumColumn, theMax) =>
        some ⟨theMax, maximumRow, maximumColumn⟩

/-- `MinimaxPlayer::get_move` (lines 157-165).  The caller's slots `col`, `row` go in;
their contents after the call come out as `(col, row)`.  `maximumValue` receives
`row` as its first and `col` as its second reference. -/
def get_move (ops : BoardOps G) (self : MinimaxPlayer) (fuel : Nat) (b : OthelloBoard G)
    (col row : Int) : Option (Int × Int) :=
  if self.symbol = ops.get_p1_symbol b.grid then
    (maximumValue ops self fuel row col 'X' b).map fun r => (r.column, r.row)
  else if self.symbol = ops.get_p2_symbol b.grid then
    (maximumValue ops self fuel row col 'O' b).map fun r => (r.column, r.row)
  else some (col, row)

/-! ## A concrete board

The methods of `OthelloBoard` are not part of `MinimaxPlayer.cpp`.  To evaluate the
player on concrete positions, `Othello.ops` supplies them for a 4x4 grid with the
usual rules of the game: a move is legal on an empty in-range cell from which, in one
of the eight directions, a run of opposing pieces ends in a piece of the mover, and
playing it places the piece and turns every such run. -/

namespace Othello

/-- Modelled from the spec: the position stored by `OthelloBoard` (its class is not in
`MinimaxPlayer.cpp`): "a square grid of fixed dimension, each cell holding empty or
one of two player symbols", with the two registered symbols.  Cell `(col, row)` is
entry `col + 4 * row` of `cells`. -/
structure Grid where
  p1_symbol : Char
  p2_symbol : Char
  cells : { l : List Char // l.length = 16 }

/-- The content of an empty cell. -/
def EMPTY : Char := '.'

def is_in_bounds (col row : Int) : Bool :=
  decide (0 ≤ col) && decide (col < 4) && decide (0 ≤ row) && decide (row < 4)

def get_cell (g : Grid) (col row : Int) : Char :=
  g.cells.val.getD (col.toNat + 4 * row.toNat) EMPTY

def set_cell (g : Grid) (col row : Int) (s : Char) : Grid :=
  { g with cells := ⟨g.cells.val.set (col.toNat + 4 * row.toNat) s, by
      rw [List.length_set]; exact g.cells.property⟩ }

/-- The eight directions, as (column step, row step). -/
def directions : List (Int × Int) :=
  [(0, -1), (1, -1), (1, 0), (1, 1), (0, 1), (-1, 1), (-1, 0), (-1, -1)]

/-- Walking from `(col, row)` in steps of `(dc, dr)`: true when the walk meets a piece
of `symbol` after at least one piece that is not (`seen`), false when it leaves the
grid or meets an empty cell first. -/
def check_endpoint (g : Grid) (symbol : Char) (dc dr : Int) : Nat → Int → Int → Bool → Bool
  | 0, _, _, _ => false
  | n + 1, col, row, seen =>
    if is_in_bounds col row = false then false
    else if get_cell g col row = EMPTY then false
    else if get_cell g col row = symbol then seen
    else check_endpoint g symbol dc dr n (col + dc) (row + dr) true

def flips_pieces (g : Grid) (col row : Int) (symbol : Char) (d : Int × Int) : Bool :=
  check_endpoint g symbol d.1 d.2 4 (col + d.1) (row + d.2) false

/-- Modelled from the spec: the legality test of the board collaborator (its code is
not in `MinimaxPlayer.cpp`), with the rule of Othello: the cell is in range and empty
and the move encloses a run of opposing pieces.  The first coordinate is the one
`getSuccessors` stores with `setColumn`. -/
def is_legal_move (g : Grid) (col row : Int) (symbol : Char) : Bool :=
  is_in_bounds col row && (get_cell g col row == EMPTY)
    && directions.any (flips_pieces g col row symbol)

/-- Turn the run of pieces that starts at `(col, row)` into pieces of `symbol`. -/
def flip_pieces (symbol : Char) (dc dr : Int) : Nat → Grid → Int → Int → Grid
  | 0, g, _, _ => g
  | n + 1, g, col, row =>
    if is_in_bounds col row = true ∧ get_cell g col row ≠ EMPTY ∧ get_cell g col row ≠ symbol
    then flip_pieces symbol dc dr n (set_cell g col row symbol) (col + dc) (row + dr)
    else g

/-- Modelled from the spec: the move application of the board collaborator (its code
is not in `MinimaxPlayer.cpp`): place the piece, then turn the runs it encloses. -/
def play_move (g : Grid) (col row : Int) (symbol : Char) : Grid :=
  directions.foldl
    (fun acc d =>
      if flips_pieces g col row symbol d = true then
        flip_pieces symbol d.1 d.2 4 acc (col + d.1) (row + d.2)
      else acc)
    (set_cell g col row symbol)

/-- Modelled from the spec: the per-symbol piece count of the board collaborator (its
code is not in `MinimaxPlayer.cpp`). -/
def count_score (g : Grid) (symbol : Char) : Nat :=
  g.cells.val.count symbol

/-- The board collaborator over `Grid`. -/
def ops : BoardOps Grid where
  get_p1_symbol := fun g => g.p1_symbol
  get_p2_symbol := fun g => g.p2_symbol
  is_legal_move := is_legal_move
  play_move := play_move
  count_score := count_score

/-- A board object holding the given sixteen cells (row 0 first), tagged (0, 0). -/
def mk (p1 p2 : Char) (cells : List Char) (h : cells.length = 16) : OthelloBoard Grid :=
  { grid := { p1_symbol := p1, p2_symbol := p2, cells := ⟨cells, h⟩ }, row := 0, column := 0 }

/-- The opening position: two pieces of each symbol in the centre. -/
def opening (p1 p2 : Char) : OthelloBoard Grid :=
  mk p1 p2
    ['.', '.', '.', '.',
     '.', p1, p2, '.',
     '.', p2, p1, '.',
     '.', '.', '.', '.'] rfl

/-- One piece of player 1 in the corner, one piece of player 2 next to it. -/
def corner (p1 p2 : Char) : OthelloBoard Grid :=
  mk p1 p2
    [p1, p2, '.', '.',
     '.', '.', '.', '.',
     '.', '.', '.', '.',
     '.', '.', '.', '.'] rfl

/-- Three pieces of player 1 in a row and nothing else: no move is legal. -/
def settled (p1 p2 : Char) : OthelloBoard Grid :=
  mk p1 p2
    [p1, p1, p1, '.',
     '.', '.', '.', '.',
     '.', '.', '.', '.',
     '.', '.', '.', '.'] rfl

/-- A position in which player 1 has three moves of different worth. -/
def midgame (p1 p2 : Char) : OthelloBoard Grid :=
  mk p1 p2
    ['.', '.', p1, '.',
     '.', p2, p2, p1,
     '.', '.', p1, '.',
     '.', '.', '.', '.'] rfl

end Othello

/-! ## Vocabulary of the statements -/

/-- The literal `get_move` hands to `maximumValue` (lines 160-163): `'X'` on the branch
`symbol == b->get_p1_symbol()`, `'O'` on the other branch. -/
def searchSymbol (ops : BoardOps G) (self : MinimaxPlayer) (b : OthelloBoard G) : Char :=
  if self.symbol = ops.get_p1_symbol b.grid then 'X' else 'O'

/-- The other one of the board's two registered symbols. -/
def opponentSymbol (ops : BoardOps G) (self : MinimaxPlayer) (b : OthelloBoard G) : Char :=
  if self.symbol = ops.get_p1_symbol b.grid then ops.get_p2_symbol b.grid
  else ops.get_p1_symbol b.grid

/-- The cells `(i, j)` in the order the loops of `getSuccessors` visit them. -/
def allCells : List (Nat × Nat) :=
  [(0, 0), (0, 1), (0, 2), (0, 3), (1, 0), (1, 1), (1, 2), (1, 3),
   (2, 0), (2, 1), (2, 2), (2, 3), (3, 0), (3, 1), (3, 2), (3, 3)]

/-- The origin tag of a board object, column first: `(getColumn, getRow)`. -/
def tag (b : OthelloBoard G) : Int × Int := (b.getColumn, b.getRow)

/-- The value a call returns, whatever it leaves in the slots. -/
def valueOf (r : Option Ret) : Option Int := r.map Ret.value

/-- The contents of `boardVector` at the emptiness test of `minimumValue` and
`maximumValue` (lines 82-88 and 124-130). -/
def boardVectorOf (ops : BoardOps G) (self : MinimaxPlayer) (playerSymbol : Char)
    (board : OthelloBoard G) : List (OthelloBoard G) :=
  if playerSymbol = 'O' then getSuccessors ops self 'O' board
  else if playerSymbol = 'X' then getSuccessors ops self 'X' board else []

/-- A callee whose returned value does not depend on what the slots hold on entry. -/
def SlotFree (call : Int → Int → OthelloBoard G → Option Ret) : Prop :=
  ∀ (r c r' c' : Int) (b : OthelloBoard G), valueOf (call r c b) = valueOf (call r' c' b)

/-- Whether some cell of the 4x4 grid is legal for `s` on the board. -/
def hasLegalCell (ops : BoardOps G) (s : Char) (board : OthelloBoard G) : Bool :=
  allCells.any fun c => ops.is_legal_move board.grid (c.1 : Int) (c.2 : Int) s

/-- The number of cells of the 4x4 grid that `empty` reports as empty. -/
def emptyCells (empty : G → Int → Int → Bool) (g : G) : Nat :=
  allCells.countP fun c => empty g (c.1 : Int) (c.2 : Int)

/-- Whether a cell of the concrete board is empty. -/
def Othello.is_cell_empty (g : Othello.Grid) (col row : Int) : Bool :=
  Othello.get_cell g col row == Othello.EMPTY

/-- The loop of `minimumValue` with the result of the single recursive call on a child
used both for the comparison and as the stored value. -/
def minimumLoopOnce (call : Int → Int → OthelloBoard G → Option Ret) :
    List (OthelloBoard G) → Int → Int → Int → Int → Int →
      Option (Int × Int × Int × Int × Int)
  | [], row, column, minimumRow, minimumColumn, theMin =>
    some (row, column, minimumRow, minimumColumn, theMin)
  | child :: rest, row, column, minimumRow, minimumColumn, theMin =>
    match call row column child with
    | none => none
    | some r1 =>
      if r1.value > theMin then
        minimumLoopOnce call rest r1.row r1.column child.getRow child.getColumn r1.value
      else minimumLoopOnce call rest r1.row r1.column minimumRow minimumColumn theMin

/-- The variant of `minimumValue` that scores each successor once. -/
def minimumValueOnce (ops : BoardOps G) (self : MinimaxPlayer) :
    Nat → Int → Int → Char → OthelloBoard G → Option Ret
  | 0, _, _, _, _ => none
  | fuel + 1, row, column, playerSymbol, board =>
    let boardVector : List (OthelloBoard G) := []
    let boardVector :=
      if playerSymbol = 'X' then getSuccessors ops self 'X' board else boardVector
    let boardVector :=
      if playerSymbol = 'O' then getSuccessors ops self 'O' board else boardVector
    if boardVector.length = 0 then some ⟨getUtility ops self board, row, column⟩
    else
      match minimumLoopOnce (fun r c b => minimumValueOnce ops self fuel r c playerSymbol b)
          boardVector row column 0 0 32767 with
      | none => none
      | some (_, _, minimumRow, _, theMin) => some ⟨theMin, minimumRow, minimumRow⟩

/-- The loop of `maximumValue` with the result of the single call of the minimizing
routine on a child used both for the comparison and as the stored value. -/
def maximumLoopOnce (call : Int → Int → OthelloBoard G → Option Ret) :
    List (OthelloBoard G) → Int → Int → Int → Int → Int →
      Option (Int × Int × Int × Int × Int)
  | [], row, column, maximumRow, maximumColumn, theMax =>
    some (row, column, maximumRow, maximumColumn, theMax)
  | child :: rest, row, column, maximumRow, maximumColumn, theMax =>
    match call row column child with
    | none => none
    | some r1 =>
      if r1.value > theMax then
        maximumLoopOnce call rest r1.row r1.column child.getRow child.getColumn r1.value
      else maximumLoopOnce call rest r1.row r1.column maximumRow maximumColumn theMax

/-- The variant of `maximumValue` that scores each successor once, with the variant of
the minimizing routine. -/
def maximumValueOnce (ops : BoardOps G) (self : MinimaxPlayer) :
    Nat → Int → Int → Char → OthelloBoard G → Option Ret
  | 0, _, _, _, _ => none
  | fuel + 1, row, column, playerSymbol, board =>
    let boardVector : List (OthelloBoard G) := []
    let boardVector :=
      if playerSymbol = 'X' then getSuccessors ops self 'X' board else boardVector
    let boardVector :=
      if playerSymbol = 'O' then getSuccessors ops self 'O' board else boardVector
    if boardVector.length = 0 then some ⟨getUtility ops self board, row, column⟩
    else
      match maximumLoopOnce (fun r c b => minimumValueOnce ops self fuel r c playerSymbol b)
          boardVector row column 0 0 (-32767) with
      | none => none
      | some (_, _, maximumRow, maximumColumn, theMax) =>
        some ⟨theMax, maximumRow, maximumColumn⟩

/-! ## The successor generator -/

theorem foldl_push_eq {α β : Type} (p : α → Bool) (f : α → β) (l : List α) (acc : List β) :
    l.foldl (fun acc x => if p x = true then acc ++ [f x] else acc) acc
      = acc ++ (l.filter p).map f := by
  induction l generalizing acc with
  | nil => simp
  | cons a l ih =>
    simp only [List.foldl_cons, ih]
    by_cases h : p a = true
    · simp [h, List.filter_cons]
    · simp [h, List.filter_cons]

theorem foldl_foldl_push_eq {α γ β : Type} (p : α → γ → Bool) (f : α → γ → β)
    (l₁ : List α) (l₂ : List γ) (acc : List β) :
    l₁.foldl (fun acc i =>
        l₂.foldl (fun acc j => if p i j = true then acc ++ [f i j] else acc) acc) acc
      = acc ++ l₁.flatMap fun i => (l₂.filter (p i)).map (f i) := by
  induction l₁ generalizing acc with
  | nil => simp
  | cons a l ih =>
    rw [List.foldl_cons, ih, foldl_push_eq, List.flatMap_cons, List.append_assoc]

/-- The loops of `getSuccessors` as a filter over the visiting order. -/
theorem getSuccessors_eq (ops : BoardOps G) (self : MinimaxPlayer) (s : Char)
    (board : OthelloBoard G) :
    getSuccessors ops self s board
      = (allCells.filter fun c => ops.is_legal_move board.grid (c.1 : Int) (c.2 : Int) s).map
          fun c => ((board.play ops (c.1 : Int) (c.2 : Int) self.symbol).setColumn
            (c.1 : Int)).setRow (c.2 : Int) := by
  unfold getSuccessors
  refine (foldl_foldl_push_eq
    (fun (i j : Nat) => ops.is_legal_move board.grid (i : Int) (j : Int) s)
    (fun (i j : Nat) => ((board.play ops (i : Int) (j : Int) self.symbol).setColumn
      (i : Int)).setRow (j : Int)) _ _ []).trans ?_
  simp only [boardDimensions, allCells, List.range_succ, List.range_zero, List.nil_append,
    List.flatMap_cons, List.flatMap_nil, List.cons_append, List.append_nil]
  have hcells : ([(0, 0), (0, 1), (0, 2), (0, 3), (1, 0), (1, 1), (1, 2), (1, 3),
      (2, 0), (2, 1), (2, 2), (2, 3), (3, 0), (3, 1), (3, 2), (3, 3)] : List (Nat × Nat))
      = [0, 1, 2, 3].map (Prod.mk 0) ++ ([0, 1, 2, 3].map (Prod.mk 1)
          ++ ([0, 1, 2, 3].map (Prod.mk 2) ++ [0, 1, 2, 3].map (Prod.mk 3))) := rfl
  rw [hcells]
  simp only [List.filter_append, List.map_append, List.filter_map, List.map_map]
  rfl

/-! ## The two loops -/

theorem maximumLoop_eq_minimumLoop (call : Int → Int → OthelloBoard G → Option Ret)
    (l : List (OthelloBoard G)) (r c a b m : Int) :
    maximumLoop call l r c a b m = minimumLoop call l r c a b m := by
  induction l generalizing r c a b m with
  | nil => rfl
  | cons child rest ih =>
    simp only [maximumLoop, minimumLoop, ih]

theorem valueOf_eq_some {r : Option Ret} {v : Int} (h : valueOf r = some v) :
    ∃ ret, r = some ret ∧ ret.value = v := by
  cases r with
  | none => simp [valueOf] at h
  | some ret => exact ⟨ret, rfl, by simpa [valueOf] using h⟩

/-- The tracked locals after the loop do not depend on the slots before it. -/
theorem minimumLoop_slotFree (call : Int → Int → OthelloBoard G → Option Ret)
    (hfree : SlotFree call) (l : List (OthelloBoard G)) (r c r' c' a b m : Int) :
    (minimumLoop call l r c a b m).map (fun o => o.2.2)
      = (minimumLoop call l r' c' a b m).map (fun o => o.2.2) := by
  induction l generalizing r c r' c' a b m with
  | nil => rfl
  | cons child rest ih =>
    have h1 := hfree r c r' c' child
    simp only [minimumLoop]
    cases e1 : call r c child with
    | none =>
      cases e1' : call r' c' child with
      | none => rfl
      | some r1' => rw [e1, e1'] at h1; simp [valueOf] at h1
    | some r1 =>
      cases e1' : call r' c' child with
      | none => rw [e1, e1'] at h1; simp [valueOf] at h1
      | some r1' =>
        rw [e1, e1'] at h1
        have hv : r1.value = r1'.value := by simpa [valueOf] using h1
        simp only [hv]
        by_cases hgt : r1'.value > m
        · simp only [hgt, if_true]
          have h2 := hfree r1.row r1.column r1'.row r1'.column child
          cases e2 : call r1.row r1.column child with
          | none =>
            cases e2' : call r1'.row r1'.column child with
            | none => rfl
            | some r2' => rw [e2, e2'] at h2; simp [valueOf] at h2
          | some r2 =>
            cases e2' : call r1'.row r1'.column child with
            | none => rw [e2, e2'] at h2; simp [valueOf] at h2
            | some r2' =>
              rw [e2, e2'] at h2
              have hv2 : r2.value = r2'.value := by simpa [valueOf] using h2
              simp only [hv2]
              exact ih _ _ _ _ _ _ _
        · simp only [hgt, if_false]
          exact ih _ _ _ _ _ _ _

/-- A loop whose callee never exceeds the tracked value leaves the locals alone. -/
theorem minimumLoop_stuck (call : Int → Int → OthelloBoard G → Option Ret)
    (l : List (OthelloBoard G)) (m : Int)
    (hle : ∀ (r c : Int) (b : OthelloBoard G) (ret : Ret), b ∈ l → call r c b = some ret →
      ret.value ≤ m)
    (r c a b : Int) (out : Int × Int × Int × Int × Int)
    (h : minimumLoop call l r c a b m = some out) : out.2.2 = (a, b, m) := by
  induction l generalizing r c with
  | nil =>
    simp only [minimumLoop, Option.some.injEq] at h
    rw [← h]
  | cons child rest ih =>
    simp only [minimumLoop] at h
    cases e1 : call r c child with
    | none => rw [e1] at h; simp at h
    | some r1 =>
      rw [e1] at h
      have hv := hle r c child r1 (List.mem_cons_self _ _) e1
      have hgt : ¬ r1.value > m := not_lt.mpr hv
      simp only [hgt, if_false] at h
      exact ih (fun r c b ret hb => hle r c b ret (List.mem_cons_of_mem _ hb)) _ _ h

/-! ## Unfolding the evaluator -/

theorem boardVectorOf_searched (ops : BoardOps G) (self : MinimaxPlayer) (ps : Char)
    (board : OthelloBoard G) (hps : ps = 'X' ∨ ps = 'O') :
    boardVectorOf ops self ps board = getSuccessors ops self ps board := by
  rcases hps with h | h <;> subst h <;> simp [boardVectorOf]

theorem minimumValue_succ (ops : BoardOps G) (self : MinimaxPlayer) (fuel : Nat)
    (row column : Int) (ps : Char) (board : OthelloBoard G) :
    minimumValue ops self (fuel + 1) row column ps board
      = if (boardVectorOf ops self ps board).length = 0 then
          some ⟨getUtility ops self board, row, column⟩
        else
          (minimumLoop (fun r c b => minimumValue ops self fuel r c ps b)
            (boardVectorOf ops self ps board) row column 0 0 32767).map
              fun o => ⟨o.2.2.2.2, o.2.2.1, o.2.2.1⟩ := by
  simp only [minimumValue, boardVectorOf]
  generalize (if ps = 'O' then getSuccessors ops self 'O' board
    else if ps = 'X' then getSuccessors ops self 'X' board else []) = bv
  by_cases h : bv.length = 0
  · simp only [h, if_true]
  · simp only [h, if_false]
    generalize minimumLoop (fun r c b => minimumValue ops self fuel r c ps b) bv row column
      0 0 32767 = o
    cases o <;> rfl

theorem maximumValue_succ (ops : BoardOps G) (self : MinimaxPlayer) (fuel : Nat)
    (row column : Int) (ps : Char) (board : OthelloBoard G) :
    maximumValue ops self (fuel + 1) row column ps board
      = if (boardVectorOf ops self ps board).length = 0 then
          some ⟨getUtility ops self board, row, column⟩
        else
          (minimumLoop (fun r c b => minimumValue ops self fuel r c ps b)
            (boardVectorOf ops self ps board) row column 0 0 (-32767)).map
              fun o => ⟨o.2.2.2.2, o.2.2.1, o.2.2.2.1⟩ := by
  simp only [maximumValue, boardVectorOf, maximumLoop_eq_minimumLoop]
  generalize (if ps = 'O' then getSuccessors ops self 'O' board
    else if ps = 'X' then getSuccessors ops self 'X' board else []) = bv
  by_cases h : bv.length = 0
  · simp only [h, if_true]
  · simp only [h, if_false]
    generalize minimumLoop (fun r c b => minimumValue ops self fuel r c ps b) bv row column
      0 0 (-32767) = o
    cases o <;> rfl

theorem minimumValue_slotFree (ops : BoardOps G) (self : MinimaxPlayer) (fuel : Nat)
    (ps : Char) : SlotFree (fun r c b => minimumValue ops self fuel r c ps b) := by
  induction fuel with
  | zero => intro r c r' c' b; rfl
  | succ fuel ih =>
    intro r c r' c' b
    simp only [minimumValue_succ]
    by_cases h : (boardVectorOf ops self ps b).length = 0
    · simp only [h, if_true, valueOf, Option.map_some']
    · simp only [h, if_false, valueOf, Option.map_map]
      have := minimumLoop_slotFree _ ih (boardVectorOf ops self ps b) r c r' c' 0 0 32767
      have h2 := congrArg (Option.map fun o : Int × Int × Int => o.2.2) this
      simpa only [Option.map_map] using h2

theorem getUtility_bounds (ops : BoardOps G) (self : MinimaxPlayer) (board : OthelloBoard G)
    (hcount : ∀ (g : G) (s : Char), ops.count_score g s ≤ 16) :
    -16 ≤ getUtility ops self board ∧ getUtility ops self board ≤ 16 := by
  have h1 := hcount board.grid (ops.get_p1_symbol board.grid)
  have h2 := hcount board.grid (ops.get_p2_symbol board.grid)
  unfold getUtility
  omega

/-- With piece counts of at most 16, a call of `minimumValue` that returns either sits
on a board without successors and returns its utility, slots untouched, or returns the
initial `theMin` and has written 0 to both slots. -/
theorem minimumValue_cases (ops : BoardOps G) (self : MinimaxPlayer)
    (hcount : ∀ (g : G) (s : Char), ops.count_score g s ≤ 16)
    (fuel : Nat) (row column : Int) (ps : Char) (board : OthelloBoard G) (ret : Ret)
    (h : minimumValue ops self fuel row column ps board = some ret) :
    (boardVectorOf ops self ps board = [] ∧ ret = ⟨getUtility ops self board, row, column⟩)
      ∨ (boardVectorOf ops self ps board ≠ [] ∧ ret = ⟨32767, 0, 0⟩) := by
  induction fuel generalizing row column board ret with
  | zero => simp [minimumValue] at h
  | succ fuel ih =>
    rw [minimumValue_succ] at h
    by_cases hlen : (boardVectorOf ops self ps board).length = 0
    · left
      simp only [hlen, if_true, Option.some.injEq] at h
      exact ⟨List.length_eq_zero.mp hlen, h.symm⟩
    · right
      simp only [hlen, if_false, Option.map_eq_some'] at h
      obtain ⟨o, ho, hret⟩ := h
      refine ⟨fun hnil => hlen (by rw [hnil]; rfl), ?_⟩
      have hstuck := minimumLoop_stuck _ (boardVectorOf ops self ps board) 32767
        (fun r c b ret' _ hcall => by
          rcases ih r c b ret' hcall with ⟨_, hr⟩ | ⟨_, hr⟩
          · have := (getUtility_bounds ops self b hcount).2
            rw [hr]; show getUtility ops self b ≤ 32767; omega
          · rw [hr])
        row column 0 0 o ho
      rw [← hret]
      have e1 : o.2.2.1 = 0 := by rw [hstuck]
      have e2 : o.2.2.2.2 = 32767 := by rw [hstuck]
      rw [e1, e2]

theorem minimumValue_value_bounds (ops : BoardOps G) (self : MinimaxPlayer)
    (hcount : ∀ (g : G) (s : Char), ops.count_score g s ≤ 16)
    (fuel : Nat) (row column : Int) (ps : Char) (board : OthelloBoard G) (ret : Ret)
    (h : minimumValue ops self fuel row column ps board = some ret) :
    -32767 < ret.value ∧ ret.value ≤ 32767 := by
  rcases minimumValue_cases ops self hcount fuel row column ps board ret h with
    ⟨_, hr⟩ | ⟨_, hr⟩
  · have := getUtility_bounds ops self board hcount
    rw [hr]; show -32767 < getUtility ops self board ∧ getUtility ops self board ≤ 32767
    omega
  · rw [hr]; decide

/-- What the loop (either one) computes when the callee is slot-free: every child has
a value; either none exceeds the initial tracked value and the locals are unchanged, or
the final tracked value is the greatest child value, exceeds the initial one, and the
tracked tag is that of the first child attaining it. -/
theorem minimumLoop_first_greatest (call : Int → Int → OthelloBoard G → Option Ret)
    (hfree : SlotFree call) (l : List (OthelloBoard G)) (r c a b m : Int)
    (out : Int × Int × Int × Int × Int)
    (h : minimumLoop call l r c a b m = some out) :
    ∃ vals : List Int,
      List.Forall₂ (fun child v => ∀ r c : Int, valueOf (call r c child) = some v) l vals ∧
      (∀ v ∈ vals, v ≤ out.2.2.2.2) ∧
      (((∀ v ∈ vals, v ≤ m) ∧ out.2.2 = (a, b, m)) ∨
        (m < out.2.2.2.2 ∧ ∃ (k : Nat) (child : OthelloBoard G),
          l[k]? = some child ∧ vals[k]? = some out.2.2.2.2 ∧
          (∀ (k' : Nat) (v : Int), k' < k → vals[k']? = some v → v < out.2.2.2.2) ∧
          out.2.2.1 = child.getRow ∧ out.2.2.2.1 = child.getColumn)) := by
  induction l generalizing r c a b m with
  | nil =>
    simp only [minimumLoop, Option.some.injEq] at h
    refine ⟨[], List.Forall₂.nil, by simp, Or.inl ⟨by simp, by rw [← h]⟩⟩
  | cons child rest ih =>
    simp only [minimumLoop] at h
    cases e1 : call r c child with
    | none => rw [e1] at h; simp at h
    | some r1 =>
      rw [e1] at h
      have hval : ∀ r' c' : Int, valueOf (call r' c' child) = some r1.value := by
        intro r' c'
        rw [hfree r' c' r c child, e1]; rfl
      by_cases hgt : r1.value > m
      · simp only [hgt, if_true] at h
        cases e2 : call r1.row r1.column child with
        | none => rw [e2] at h; simp at h
        | some r2 =>
          rw [e2] at h
          have hv2 : r2.value = r1.value := by
            have := hval r1.row r1.column
            rw [e2] at this
            simpa [valueOf] using this
          simp only [hv2] at h
          obtain ⟨vals, hall, hub, hcase⟩ := ih _ _ _ _ _ h
          refine ⟨r1.value :: vals, List.Forall₂.cons hval hall, ?_, Or.inr ?_⟩
          · intro v hv
            rcases List.mem_cons.mp hv with rfl | hv
            · rcases hcase with ⟨_, ho⟩ | ⟨hlt, _⟩
              · rw [ho]
              · exact le_of_lt hlt
            · exact hub v hv
          · rcases hcase with ⟨hle, ho⟩ | ⟨hlt, k, ch, hk, hvk, hbefore, hrow, hcol⟩
            · refine ⟨by rw [ho]; exact hgt, 0, child, List.getElem?_cons_zero,
                by rw [ho, List.getElem?_cons_zero], ?_, by rw [ho], by rw [ho]⟩
              intro k' v hk'
              exact absurd hk' (Nat.not_lt_zero _)
            · refine ⟨lt_trans hgt hlt, k + 1, ch, by simpa using hk, by simpa using hvk, ?_,
                hrow, hcol⟩
              intro k' v hk' hv
              cases k' with
              | zero =>
                simp only [List.getElem?_cons_zero, Option.some.injEq] at hv
                rw [← hv]; exact hlt
              | succ k' =>
                simp only [List.getElem?_cons_succ] at hv
                exact hbefore k' v (Nat.lt_of_succ_lt_succ hk') hv
      · simp only [hgt, if_false] at h
        obtain ⟨vals, hall, hub, hcase⟩ := ih _ _ _ _ _ h
        have hle1 : r1.value ≤ m := not_lt.mp hgt
        refine ⟨r1.value :: vals, List.Forall₂.cons hval hall, ?_, ?_⟩
        · intro v hv
          rcases List.mem_cons.mp hv with rfl | hv
          · rcases hcase with ⟨_, ho⟩ | ⟨hlt, _⟩
            · rw [ho]; exact hle1
            · exact le_of_lt (lt_of_le_of_lt hle1 hlt)
          · exact hub v hv
        · rcases hcase with ⟨hle, ho⟩ | ⟨hlt, k, ch, hk, hvk, hbefore, hrow, hcol⟩
          · left
            refine ⟨?_, ho⟩
            intro v hv
            rcases List.mem_cons.mp hv with rfl | hv
            · exact hle1
            · exact hle v hv
          · right
            refine ⟨hlt, k + 1, ch, by simpa using hk, by simpa using hvk, ?_, hrow, hcol⟩
            intro k' v hk' hv
            cases k' with
            | zero =>
              simp only [List.getElem?_cons_zero, Option.some.injEq] at hv
              rw [← hv]; exact lt_of_le_of_lt hle1 hlt
            | succ k' =>
              simp only [List.getElem?_cons_succ] at hv
              exact hbefore k' v (Nat.lt_of_succ_lt_succ hk') hv

/-! ## Facts about the successors -/

theorem allCells_lt : ∀ c ∈ allCells, c.1 < 4 ∧ c.2 < 4 := by decide

theorem mem_allCells : ∀ i : Nat, i < 4 → ∀ j : Nat, j < 4 → (i, j) ∈ allCells := by decide

theorem allCells_sorted :
    allCells.Pairwise (fun a b => a.1 < b.1 ∨ (a.1 = b.1 ∧ a.2 < b.2)) := by decide

theorem tags_getSuccessors (ops : BoardOps G) (self : MinimaxPlayer) (s : Char)
    (board : OthelloBoard G) :
    (getSuccessors ops self s board).map tag
      = (allCells.filter fun c => ops.is_legal_move board.grid (c.1 : Int) (c.2 : Int) s).map
          fun c => ((c.1 : Int), (c.2 : Int)) := by
  rw [getSuccessors_eq, List.map_map]
  rfl

theorem mem_tags_getSuccessors (ops : BoardOps G) (self : MinimaxPlayer) (s : Char)
    (board : OthelloBoard G) (c r : Int) :
    (c, r) ∈ (getSuccessors ops self s board).map tag
      ↔ 0 ≤ c ∧ c < 4 ∧ 0 ≤ r ∧ r < 4 ∧ ops.is_legal_move board.grid c r s = true := by
  rw [tags_getSuccessors]
  simp only [List.mem_map, List.mem_filter, Prod.mk.injEq, Prod.exists]
  constructor
  · rintro ⟨i, j, ⟨hmem, hlegal⟩, rfl, rfl⟩
    have := allCells_lt (i, j) hmem
    simp only at this
    refine ⟨by omega, by omega, by omega, by omega, hlegal⟩
  · rintro ⟨h1, h2, h3, h4, hlegal⟩
    refine ⟨c.toNat, r.toNat, ⟨mem_allCells _ (by omega) _ (by omega), ?_⟩, ?_, ?_⟩
    · rw [Int.toNat_of_nonneg h1, Int.toNat_of_nonneg h3]; exact hlegal
    · exact Int.toNat_of_nonneg h1
    · exact Int.toNat_of_nonneg h3

/-- The tags of the successors increase strictly in the order column first, row second. -/
theorem tags_getSuccessors_sorted (ops : BoardOps G) (self : MinimaxPlayer) (s : Char)
    (board : OthelloBoard G) :
    ((getSuccessors ops self s board).map tag).Pairwise
      (fun a b => a.1 < b.1 ∨ (a.1 = b.1 ∧ a.2 < b.2)) := by
  rw [tags_getSuccessors, List.pairwise_map]
  refine (allCells_sorted.filter _).imp ?_
  intro a b hab
  show ((a.1 : Int) < (b.1 : Int)) ∨ ((a.1 : Int) = (b.1 : Int) ∧ (a.2 : Int) < (b.2 : Int))
  omega

theorem tags_getSuccessors_nodup (ops : BoardOps G) (self : MinimaxPlayer) (s : Char)
    (board : OthelloBoard G) : ((getSuccessors ops self s board).map tag).Nodup := by
  refine (tags_getSuccessors_sorted ops self s board).imp ?_
  intro a b hab heq
  rcases hab with h | ⟨_, h⟩
  · rw [heq] at h; exact lt_irrefl _ h
  · rw [heq] at h; exact lt_irrefl _ h

/-- Every successor carries the tag of a cell in range that passed the legality test. -/
theorem mem_getSuccessors_legal (ops : BoardOps G) (self : MinimaxPlayer) (s : Char)
    (board child : OthelloBoard G) (h : child ∈ getSuccessors ops self s board) :
    0 ≤ child.getColumn ∧ child.getColumn < 4 ∧ 0 ≤ child.getRow ∧ child.getRow < 4 ∧
      ops.is_legal_move board.grid child.getColumn child.getRow s = true :=
  (mem_tags_getSuccessors ops self s board child.getColumn child.getRow).mp
    (List.mem_map.mpr ⟨child, h, rfl⟩)

theorem getSuccessors_eq_nil_iff (ops : BoardOps G) (self : MinimaxPlayer) (s : Char)
    (board : OthelloBoard G) :
    getSuccessors ops self s board = [] ↔
      ∀ c r : Int, 0 ≤ c → c < 4 → 0 ≤ r → r < 4 →
        ops.is_legal_move board.grid c r s = false := by
  constructor
  · intro hnil c r h1 h2 h3 h4
    by_contra hl
    have hl' : ops.is_legal_move board.grid c r s = true := by simpa using hl
    have := (mem_tags_getSuccessors ops self s board c r).mpr ⟨h1, h2, h3, h4, hl'⟩
    rw [hnil] at this
    simp at this
  · intro hall
    cases hs : getSuccessors ops self s board with
    | nil => rfl
    | cons child rest =>
      have hmem : child ∈ getSuccessors ops self s board := by rw [hs]; exact List.mem_cons_self _ _
      obtain ⟨h1, h2, h3, h4, hl⟩ := mem_getSuccessors_legal ops self s board child hmem
      rw [hall _ _ h1 h2 h3 h4] at hl
      exact absurd hl (by decide)

/-! ## The call-depth budget

A result obtained under one budget is the result under every larger budget, and a board
collaborator whose legal moves all decrease some measure makes every search return. -/

theorem minimumLoop_mono (call call' : Int → Int → OthelloBoard G → Option Ret)
    (hcall : ∀ (r c : Int) (b : OthelloBoard G) (x : Ret), call r c b = some x →
      call' r c b = some x)
    (l : List (OthelloBoard G)) (r c a b m : Int) (out : Int × Int × Int × Int × Int)
    (h : minimumLoop call l r c a b m = some out) :
    minimumLoop call' l r c a b m = some out := by
  induction l generalizing r c a b m with
  | nil => exact h
  | cons child rest ih =>
    simp only [minimumLoop] at h ⊢
    cases e1 : call r c child with
    | none => rw [e1] at h; simp at h
    | some r1 =>
      rw [e1] at h
      rw [hcall r c child r1 e1]
      by_cases hgt : r1.value > m
      · simp only [hgt, if_true] at h ⊢
        cases e2 : call r1.row r1.column child with
        | none => rw [e2] at h; simp at h
        | some r2 =>
          rw [e2] at h
          rw [hcall _ _ child r2 e2]
          exact ih _ _ _ _ _ h
      · simp only [hgt, if_false] at h ⊢
        exact ih _ _ _ _ _ h

theorem minimumValue_fuel_succ (ops : BoardOps G) (self : MinimaxPlayer) (fuel : Nat)
    (row column : Int) (ps : Char) (board : OthelloBoard G) (ret : Ret)
    (h : minimumValue ops self fuel row column ps board = some ret) :
    minimumValue ops self (fuel + 1) row column ps board = some ret := by
  induction fuel generalizing row column board ret with
  | zero => simp [minimumValue] at h
  | succ fuel ih =>
    rw [minimumValue_succ] at h ⊢
    by_cases hlen : (boardVectorOf ops self ps board).length = 0
    · simp only [hlen, if_true] at h ⊢
      exact h
    · simp only [hlen, if_false, Option.map_eq_some'] at h ⊢
      obtain ⟨o, ho, hret⟩ := h
      exact ⟨o, minimumLoop_mono _ _ (fun r c b x hx => ih r c b x hx) _ _ _ _ _ _ o ho, hret⟩

theorem minimumValue_fuel_mono (ops : BoardOps G) (self : MinimaxPlayer) (fuel fuel' : Nat)
    (hle : fuel ≤ fuel') (row column : Int) (ps : Char) (board : OthelloBoard G) (ret : Ret)
    (h : minimumValue ops self fuel row column ps board = some ret) :
    minimumValue ops self fuel' row column ps board = some ret := by
  induction hle with
  | refl => exact h
  | step _ ih => exact minimumValue_fuel_succ ops self _ row column ps board ret ih

theorem maximumValue_fuel_mono (ops : BoardOps G) (self : MinimaxPlayer) (fuel fuel' : Nat)
    (hle : fuel ≤ fuel') (row column : Int) (ps : Char) (board : OthelloBoard G) (ret : Ret)
    (h : maximumValue ops self fuel row column ps board = some ret) :
    maximumValue ops self fuel' row column ps board = some ret := by
  cases fuel with
  | zero => simp [maximumValue] at h
  | succ fuel =>
    obtain ⟨n, rfl⟩ : ∃ n, fuel' = n + 1 := ⟨fuel' - 1, by omega⟩
    rw [maximumValue_succ] at h ⊢
    by_cases hlen : (boardVectorOf ops self ps board).length = 0
    · simp only [hlen, if_true] at h ⊢
      exact h
    · simp only [hlen, if_false, Option.map_eq_some'] at h ⊢
      obtain ⟨o, ho, hret⟩ := h
      exact ⟨o, minimumLoop_mono _ _
        (fun r c b x hx => minimumValue_fuel_mono ops self fuel n (by omega) r c ps b x hx)
        _ _ _ _ _ _ o ho, hret⟩

theorem minimumLoop_isSome (call : Int → Int → OthelloBoard G → Option Ret)
    (l : List (OthelloBoard G))
    (hcall : ∀ (r c : Int) (b : OthelloBoard G), b ∈ l → (call r c b).isSome = true)
    (r c a b m : Int) : (minimumLoop call l r c a b m).isSome = true := by
  induction l generalizing r c a b m with
  | nil => rfl
  | cons child rest ih =>
    have ih' := ih (fun r c b hb => hcall r c b (List.mem_cons_of_mem _ hb))
    simp only [minimumLoop]
    cases e1 : call r c child with
    | none =>
      have := hcall r c child (List.mem_cons_self _ _)
      rw [e1] at this; simp at this
    | some r1 =>
      by_cases hgt : r1.value > m
      · simp only [hgt, if_true]
        cases e2 : call r1.row r1.column child with
        | none =>
          have := hcall r1.row r1.column child (List.mem_cons_self _ _)
          rw [e2] at this; simp at this
        | some r2 => exact ih' _ _ _ _ _
      · simp only [hgt, if_false]
        exact ih' _ _ _ _ _

/-- Every successor is the parent with one move of the agent's symbol played on a cell
that is legal for the passed symbol. -/
theorem mem_getSuccessors_grid (ops : BoardOps G) (self : MinimaxPlayer) (s : Char)
    (board child : OthelloBoard G) (h : child ∈ getSuccessors ops self s board) :
    ∃ i j : Int, ops.is_legal_move board.grid i j s = true ∧
      child.grid = ops.play_move board.grid i j self.symbol := by
  rw [getSuccessors_eq] at h
  obtain ⟨c, hc, rfl⟩ := List.mem_map.mp h
  exact ⟨(c.1 : Int), (c.2 : Int), (List.mem_filter.mp hc).2, rfl⟩

theorem mem_boardVectorOf (ops : BoardOps G) (self : MinimaxPlayer) (ps : Char)
    (board child : OthelloBoard G) (h : child ∈ boardVectorOf ops self ps board) :
    child ∈ getSuccessors ops self ps board := by
  unfold boardVectorOf at h
  by_cases hO : ps = 'O'
  · rw [if_pos hO] at h; rw [hO]; exact h
  · rw [if_neg hO] at h
    by_cases hX : ps = 'X'
    · rw [if_pos hX] at h; rw [hX]; exact h
    · rw [if_neg hX] at h; simp at h

/-- If every move that is legal for some symbol, played with any symbol, decreases a
measure of the position, `minimumValue` returns under every budget above the measure. -/
theorem minimumValue_terminates (ops : BoardOps G) (self : MinimaxPlayer) (μ : G → Nat)
    (hμ : ∀ (g : G) (i j : Int) (s t : Char), ops.is_legal_move g i j s = true →
      μ (ops.play_move g i j t) < μ g)
    (fuel : Nat) (row column : Int) (ps : Char) (board : OthelloBoard G)
    (hfuel : μ board.grid < fuel) :
    (minimumValue ops self fuel row column ps board).isSome = true := by
  induction fuel generalizing row column board with
  | zero => omega
  | succ fuel ih =>
    rw [minimumValue_succ]
    by_cases hlen : (boardVectorOf ops self ps board).length = 0
    · simp only [hlen, if_true, Option.isSome_some]
    · simp only [hlen, if_false, Option.isSome_map']
      refine minimumLoop_isSome _ _ (fun r c b hb => ?_) _ _ _ _ _
      obtain ⟨i, j, hl, hg⟩ :=
        mem_getSuccessors_grid ops self ps board b (mem_boardVectorOf ops self ps board b hb)
      have := hμ board.grid i j ps self.symbol hl
      exact ih r c b (by rw [hg]; omega)

theorem maximumValue_terminates (ops : BoardOps G) (self : MinimaxPlayer) (μ : G → Nat)
    (hμ : ∀ (g : G) (i j : Int) (s t : Char), ops.is_legal_move g i j s = true →
      μ (ops.play_move g i j t) < μ g)
    (fuel : Nat) (row column : Int) (ps : Char) (board : OthelloBoard G)
    (hfuel : μ board.grid < fuel) :
    (maximumValue ops self fuel row column ps board).isSome = true := by
  cases fuel with
  | zero => omega
  | succ fuel =>
    rw [maximumValue_succ]
    by_cases hlen : (boardVectorOf ops self ps board).length = 0
    · simp only [hlen, if_true, Option.isSome_some]
    · simp only [hlen, if_false, Option.isSome_map']
      refine minimumLoop_isSome _ _ (fun r c b hb => ?_) _ _ _ _ _
      obtain ⟨i, j, hl, hg⟩ :=
        mem_getSuccessors_grid ops self ps board b (mem_boardVectorOf ops self ps board b hb)
      have := hμ board.grid i j ps self.symbol hl
      exact minimumValue_terminates ops self μ hμ fuel r c ps b (by rw [hg]; omega)

/-! ## The maximizing routine on a board with successors -/

theorem Othello.count_score_le (g : Othello.Grid) (s : Char) :
    Othello.ops.count_score g s ≤ 16 := by
  show g.cells.val.count s ≤ 16
  have h := List.count_le_length s g.cells.val
  rw [g.cells.property] at h
  exact h

/-- The loop of `maximumValue` started from `-32767` over a non-empty `boardVector`:
the result is the greatest child value and the tag of the first child attaining it. -/
theorem maximumValue_first_greatest (ops : BoardOps G) (self : MinimaxPlayer) (fuel : Nat)
    (row column : Int) (ps : Char) (board : OthelloBoard G) (ret : Ret)
    (hne : boardVectorOf ops self ps board ≠ [])
    (hcount : ∀ (g : G) (s : Char), ops.count_score g s ≤ 16)
    (hterm : maximumValue ops self (fuel + 1) row column ps board = some ret) :
    ∃ vals : List Int,
      List.Forall₂
        (fun child v => ∀ r c : Int, valueOf (minimumValue ops self fuel r c ps child) = some v)
        (boardVectorOf ops self ps board) vals ∧
      (∀ v ∈ vals, v ≤ ret.value) ∧
      ∃ (k : Nat) (child : OthelloBoard G),
        (boardVectorOf ops self ps board)[k]? = some child ∧ vals[k]? = some ret.value ∧
        (∀ (k' : Nat) (v : Int), k' < k → vals[k']? = some v → v < ret.value) ∧
        ret.row = child.getRow ∧ ret.column = child.getColumn := by
  rw [maximumValue_succ] at hterm
  have hlen : ¬ (boardVectorOf ops self ps board).length = 0 := fun h =>
    hne (List.length_eq_zero.mp h)
  simp only [hlen, if_false, Option.map_eq_some'] at hterm
  obtain ⟨o, ho, hret⟩ := hterm
  obtain ⟨vals, hall, hub, hcase⟩ :=
    minimumLoop_first_greatest _ (minimumValue_slotFree ops self fuel ps) _ _ _ _ _ _ o ho
  have hv : ret.value = o.2.2.2.2 := by rw [← hret]
  have hr : ret.row = o.2.2.1 := by rw [← hret]
  have hc : ret.column = o.2.2.2.1 := by rw [← hret]
  refine ⟨vals, hall, by rw [hv]; exact hub, ?_⟩
  rcases hcase with ⟨hle, _⟩ | ⟨_, k, child, hk, hvk, hbefore, hrow, hcol⟩
  · exfalso
    generalize boardVectorOf ops self ps board = bv at hall hne
    cases hall with
    | nil => exact hne rfl
    | @cons child v rest vals' h0 _ =>
      obtain ⟨ret0, hcall, hval⟩ := valueOf_eq_some (h0 0 0)
      have hb := (minimumValue_value_bounds ops self hcount fuel 0 0 ps child ret0 hcall).1
      have := hle v (List.mem_cons_self _ _)
      omega
  · exact ⟨k, child, hk, by rw [hv]; exact hvk, by rw [hv]; exact hbefore,
      by rw [hr]; exact hrow, by rw [hc]; exact hcol⟩

/-! ## The claims -/

/-- C1: for an agent whose symbol is one of the board's two symbols, on a board with a
cell in range that is legal for the symbol the search starts with, with piece counts of
at most 16 and a search that terminates, `get_move` writes a pair `(col, row)` in range
for which `is_legal_move(col, row, that symbol)` holds on the input board. -/
theorem get_move_writes_legal_move (ops : BoardOps G) (self : MinimaxPlayer) (fuel : Nat)
    (b : OthelloBoard G) (col row : Int)
    (hsym : self.symbol = ops.get_p1_symbol b.grid ∨ self.symbol = ops.get_p2_symbol b.grid)
    (hlegal : ∃ c r : Int, 0 ≤ c ∧ c < 4 ∧ 0 ≤ r ∧ r < 4 ∧
      ops.is_legal_move b.grid c r (searchSymbol ops self b) = true)
    (hcount : ∀ (g : G) (s : Char), ops.count_score g s ≤ 16)
    (hterm : (get_move ops self fuel b col row).isSome = true) :
    ∃ col' row' : Int, get_move ops self fuel b col row = some (col', row') ∧
      0 ≤ col' ∧ col' < 4 ∧ 0 ≤ row' ∧ row' < 4 ∧
      ops.is_legal_move b.grid col' row' (searchSymbol ops self b) = true := by
  have hps : searchSymbol ops self b = 'X' ∨ searchSymbol ops self b = 'O' := by
    unfold searchSymbol; split <;> simp
  have hget : get_move ops self fuel b col row
      = (maximumValue ops self fuel row col (searchSymbol ops self b) b).map
          fun r => (r.column, r.row) := by
    unfold get_move searchSymbol
    by_cases h1 : self.symbol = ops.get_p1_symbol b.grid
    · rw [if_pos h1, if_pos h1]
    · have h2 : self.symbol = ops.get_p2_symbol b.grid := hsym.resolve_left h1
      rw [if_neg h1, if_pos h2, if_neg h1]
  rw [hget] at hterm ⊢
  cases fuel with
  | zero => simp [maximumValue] at hterm
  | succ fuel =>
    cases hmax : maximumValue ops self (fuel + 1) row col (searchSymbol ops self b) b with
    | none => rw [hmax] at hterm; simp at hterm
    | some ret =>
      have hbv := boardVectorOf_searched ops self (searchSymbol ops self b) b hps
      have hne : boardVectorOf ops self (searchSymbol ops self b) b ≠ [] := by
        rw [hbv]
        intro hnil
        obtain ⟨c, r, h1, h2, h3, h4, hl⟩ := hlegal
        rw [(getSuccessors_eq_nil_iff ops self _ b).mp hnil c r h1 h2 h3 h4] at hl
        exact absurd hl (by decide)
      obtain ⟨vals, _, _, k, child, hk, _, _, hrow, hcol⟩ :=
        maximumValue_first_greatest ops self fuel row col _ b ret hne hcount hmax
      rw [hbv] at hk
      have hmem : child ∈ getSuccessors ops self (searchSymbol ops self b) b :=
        List.getElem?_mem hk
      obtain ⟨h1, h2, h3, h4, hl⟩ := mem_getSuccessors_legal ops self _ b child hmem
      refine ⟨ret.column, ret.row, rfl, ?_⟩
      rw [hrow, hcol]
      exact ⟨h1, h2, h3, h4, hl⟩

/-- Witness of C1: the agent 'X' on the opening position. -/
theorem get_move_writes_legal_move_witness :
    get_move Othello.ops ⟨'X'⟩ 5 (Othello.opening 'X' 'O') 7 9 = some (0, 2) ∧
    ∃ col' row' : Int,
      get_move Othello.ops ⟨'X'⟩ 5 (Othello.opening 'X' 'O') 7 9 = some (col', row') ∧
      0 ≤ col' ∧ col' < 4 ∧ 0 ≤ row' ∧ row' < 4 ∧
      Othello.ops.is_legal_move (Othello.opening 'X' 'O').grid col' row'
        (searchSymbol Othello.ops ⟨'X'⟩ (Othello.opening 'X' 'O')) = true :=
  ⟨by decide,
    get_move_writes_legal_move Othello.ops ⟨'X'⟩ 5 (Othello.opening 'X' 'O') 7 9
      (Or.inl rfl) ⟨0, 2, by decide⟩ Othello.count_score_le (by decide)⟩

/-- C2: `getUtility` returns the player-1 piece count minus the player-2 piece count of
the board, for every board; the agent (and so its symbol) does not enter the result, and
the function receives no searched symbol at all. -/
theorem getUtility_eq_count_difference (ops : BoardOps G) (self other : MinimaxPlayer)
    (board : OthelloBoard G) :
    getUtility ops self board
        = (ops.count_score board.grid (ops.get_p1_symbol board.grid) : Int)
          - (ops.count_score board.grid (ops.get_p2_symbol board.grid) : Int) ∧
      getUtility ops self board = getUtility ops other board :=
  ⟨rfl, rfl⟩

/-- C3: on a board where no cell of the 4x4 grid is legal for the symbol, `getSuccessors`
is empty and both `minimumValue` and `maximumValue` return exactly `getUtility(board)`,
leaving the slots as they were; a call-depth budget of one call (`fuel = 0` below) already
suffices, so no successor is evaluated. -/
theorem no_legal_move_returns_utility (ops : BoardOps G) (self : MinimaxPlayer) (fuel : Nat)
    (row column : Int) (s : Char) (board : OthelloBoard G)
    (h : ∀ c r : Int, 0 ≤ c → c < 4 → 0 ≤ r → r < 4 →
      ops.is_legal_move board.grid c r s = false) :
    getSuccessors ops self s board = [] ∧
      minimumValue ops self (fuel + 1) row column s board
        = some ⟨getUtility ops self board, row, column⟩ ∧
      maximumValue ops self (fuel + 1) row column s board
        = some ⟨getUtility ops self board, row, column⟩ := by
  have hnil : getSuccessors ops self s board = [] :=
    (getSuccessors_eq_nil_iff ops self s board).mpr h
  have hbv : boardVectorOf ops self s board = [] := by
    unfold boardVectorOf
    by_cases hO : s = 'O'
    · rw [if_pos hO, ← hO]; exact hnil
    · rw [if_neg hO]
      by_cases hX : s = 'X'
      · rw [if_pos hX, ← hX]; exact hnil
      · rw [if_neg hX]
  refine ⟨hnil, ?_, ?_⟩
  · rw [minimumValue_succ, hbv]; rfl
  · rw [maximumValue_succ, hbv]; rfl

/-- Witness of C3: three pieces of 'X' and nothing else, searched for 'X'. -/
theorem no_legal_move_returns_utility_witness :
    minimumValue Othello.ops ⟨'X'⟩ 1 7 9 'X' (Othello.settled 'X' 'O') = some ⟨3, 7, 9⟩ ∧
      maximumValue Othello.ops ⟨'X'⟩ 1 7 9 'X' (Othello.settled 'X' 'O') = some ⟨3, 7, 9⟩ :=
  (no_legal_move_returns_utility Othello.ops ⟨'X'⟩ 0 7 9 'X' (Othello.settled 'X' 'O')
    (by
      intro c r h1 h2 h3 h4
      interval_cases c <;> interval_cases r <;> rfl)).2

/-- C4: an agent whose symbol is neither of the board's two symbols gets no move from
`get_move`: the slots come back as passed, under every call-depth budget, the empty one
included, so no search is performed. -/
theorem get_move_unrecognized_symbol (ops : BoardOps G) (self : MinimaxPlayer) (fuel : Nat)
    (b : OthelloBoard G) (col row : Int)
    (h1 : self.symbol ≠ ops.get_p1_symbol b.grid)
    (h2 : self.symbol ≠ ops.get_p2_symbol b.grid) :
    get_move ops self fuel b col row = some (col, row) := by
  unfold get_move
  rw [if_neg h1, if_neg h2]

/-- Witness of C4: the agent 'Z' on the opening position of 'X' and 'O', with the empty
call-depth budget. -/
theorem get_move_unrecognized_symbol_witness :
    get_move Othello.ops ⟨'Z'⟩ 0 (Othello.opening 'X' 'O') 7 9 = some (7, 9) :=
  get_move_unrecognized_symbol Othello.ops ⟨'Z'⟩ 0 (Othello.opening 'X' 'O') 7 9
    (by decide) (by decide)

/-- C5, as the code has it: for an agent whose symbol is one of the board's two symbols,
`get_move` writes exactly the `(column, row)` that `maximumValue` writes on the same board
with `playerSymbol` the literal 'X' when the agent's symbol is the player-1 symbol and the
literal 'O' otherwise; that literal is the agent's own symbol whenever the board's
player-1 symbol is 'X' and its player-2 symbol is 'O'. -/
theorem get_move_eq_maximumValue (ops : BoardOps G) (self : MinimaxPlayer) (fuel : Nat)
    (b : OthelloBoard G) (col row : Int)
    (hsym : self.symbol = ops.get_p1_symbol b.grid ∨ self.symbol = ops.get_p2_symbol b.grid) :
    get_move ops self fuel b col row
        = (maximumValue ops self fuel row col
            (if self.symbol = ops.get_p1_symbol b.grid then 'X' else 'O') b).map
              (fun r => (r.column, r.row)) ∧
      (ops.get_p1_symbol b.grid = 'X' → ops.get_p2_symbol b.grid = 'O' →
        (if self.symbol = ops.get_p1_symbol b.grid then 'X' else 'O') = self.symbol) := by
  constructor
  · unfold get_move
    by_cases h1 : self.symbol = ops.get_p1_symbol b.grid
    · rw [if_pos h1, if_pos h1]
    · rw [if_neg h1, if_pos (hsym.resolve_left h1), if_neg h1]
  · intro hX hO
    by_cases h1 : self.symbol = ops.get_p1_symbol b.grid
    · rw [if_pos h1, h1, hX]
    · rw [if_neg h1, hsym.resolve_left h1, hO]

/-- Witness of C5 as amended: the agent 'O' on the opening position of 'X' and 'O'. -/
theorem get_move_eq_maximumValue_witness :
    get_move Othello.ops ⟨'O'⟩ 5 (Othello.opening 'X' 'O') 7 9
        = (maximumValue Othello.ops ⟨'O'⟩ 5 9 7
            (if (⟨'O'⟩ : MinimaxPlayer).symbol
                = Othello.ops.get_p1_symbol (Othello.opening 'X' 'O').grid then 'X' else 'O')
            (Othello.opening 'X' 'O')).map (fun r => (r.column, r.row)) ∧
      (Othello.ops.get_p1_symbol (Othello.opening 'X' 'O').grid = 'X' →
        Othello.ops.get_p2_symbol (Othello.opening 'X' 'O').grid = 'O' →
        (if (⟨'O'⟩ : MinimaxPlayer).symbol
            = Othello.ops.get_p1_symbol (Othello.opening 'X' 'O').grid then 'X' else 'O')
          = (⟨'O'⟩ : MinimaxPlayer).symbol) :=
  get_move_eq_maximumValue Othello.ops ⟨'O'⟩ 5 (Othello.opening 'X' 'O') 7 9 (Or.inr rfl)

/-- C5 as stated fails: on the opening position of a board whose player-1 symbol is 'O'
and whose player-2 symbol is 'X', the agent 'O' is player 1, `get_move` searches with
'X' and writes `(col, row) = (0, 1)`, while `maximumValue` run with the agent's own
symbol 'O' writes `(column, row) = (0, 2)`. -/
theorem get_move_not_own_symbol :
    (⟨'O'⟩ : MinimaxPlayer).symbol
        = Othello.ops.get_p1_symbol (Othello.opening 'O' 'X').grid ∧
      get_move Othello.ops ⟨'O'⟩ 5 (Othello.opening 'O' 'X') 7 9 = some (0, 1) ∧
      (maximumValue Othello.ops ⟨'O'⟩ 5 9 7 (⟨'O'⟩ : MinimaxPlayer).symbol
          (Othello.opening 'O' 'X')).map (fun r => (r.column, r.row)) = some (0, 2) := by
  decide

/-- C6: `getSuccessors` returns exactly one successor for every cell of the 4x4 grid that
is legal for the passed symbol and nothing else (a tag occurs among the successors exactly
when its cell is in range and legal, and no tag occurs twice), so its length is the number
of legal cells and at most 16; it returns the empty sequence if and only if no cell is
legal for the symbol. -/
theorem getSuccessors_one_per_legal_cell (ops : BoardOps G) (self : MinimaxPlayer) (s : Char)
    (board : OthelloBoard G) :
    (∀ c r : Int, (c, r) ∈ (getSuccessors ops self s board).map tag ↔
        (0 ≤ c ∧ c < 4 ∧ 0 ≤ r ∧ r < 4 ∧ ops.is_legal_move board.grid c r s = true)) ∧
      ((getSuccessors ops self s board).map tag).Nodup ∧
      (getSuccessors ops self s board).length
        = allCells.countP (fun c => ops.is_legal_move board.grid (c.1 : Int) (c.2 : Int) s) ∧
      (getSuccessors ops self s board).length ≤ 16 ∧
      (getSuccessors ops self s board = [] ↔
        ∀ c r : Int, 0 ≤ c → c < 4 → 0 ≤ r → r < 4 →
          ops.is_legal_move board.grid c r s = false) := by
  have hlen : (getSuccessors ops self s board).length
      = allCells.countP (fun c => ops.is_legal_move board.grid (c.1 : Int) (c.2 : Int) s) := by
    rw [getSuccessors_eq, List.length_map, List.countP_eq_length_filter]
  refine ⟨mem_tags_getSuccessors ops self s board, tags_getSuccessors_nodup ops self s board,
    hlen, ?_, getSuccessors_eq_nil_iff ops self s board⟩
  rw [hlen]
  exact (List.countP_le_length _).trans (by decide)

/-- C7, as the code has it: the successors come in the order of the loops, the outer
index being the column tag and the inner index the row tag: along the returned sequence
the column tag never decreases and, within one column tag, the row tag strictly increases;
and each tag `(column, row)` is a cell in range that passed the legality test. -/
theorem getSuccessors_column_major (ops : BoardOps G) (self : MinimaxPlayer) (s : Char)
    (board : OthelloBoard G) :
    (getSuccessors ops self s board).Pairwise
        (fun a b => a.getColumn < b.getColumn ∨
          (a.getColumn = b.getColumn ∧ a.getRow < b.getRow)) ∧
      ∀ child ∈ getSuccessors ops self s board,
        0 ≤ child.getColumn ∧ child.getColumn < 4 ∧ 0 ≤ child.getRow ∧ child.getRow < 4 ∧
          ops.is_legal_move board.grid child.getColumn child.getRow s = true := by
  refine ⟨?_, fun child h => mem_getSuccessors_legal ops self s board child h⟩
  have h := tags_getSuccessors_sorted ops self s board
  rw [List.pairwise_map] at h
  exact h

/-- C7 as stated fails: on the opening position the successors for 'X' carry the
`(getRow, getColumn)` tags (2, 0), (3, 1), (0, 2), (1, 3), so the row tag drops from 3 to 0
between the second and the third. -/
theorem getSuccessors_not_row_major :
    (getSuccessors Othello.ops ⟨'X'⟩ 'X' (Othello.opening 'X' 'O')).map
        (fun b => (b.getRow, b.getColumn)) = [(2, 0), (3, 1), (0, 2), (1, 3)] ∧
      ¬ List.Chain' (fun a b : Int => a ≤ b)
        ((getSuccessors Othello.ops ⟨'X'⟩ 'X' (Othello.opening 'X' 'O')).map
          fun b => b.getRow) := by
  have hrows : (getSuccessors Othello.ops ⟨'X'⟩ 'X' (Othello.opening 'X' 'O')).map
      (fun b => b.getRow) = [2, 3, 0, 1] := by decide
  refine ⟨by decide, ?_⟩
  rw [hrows]
  simp

/-- C8: on a board with at least one successor for the searched symbol, with piece counts
of at most 16 and a search that terminates, `maximumValue` returns the greatest of the
values `minimumValue` assigns to the successors, and writes into its row and column
outputs the tag `(getRow, getColumn)` of the first successor, in generation order, that
attains it. -/
theorem maximumValue_greatest_first (ops : BoardOps G) (self : MinimaxPlayer) (fuel : Nat)
    (row column : Int) (ps : Char) (board : OthelloBoard G) (ret : Ret)
    (hps : ps = 'X' ∨ ps = 'O')
    (hne : getSuccessors ops self ps board ≠ [])
    (hcount : ∀ (g : G) (s : Char), ops.count_score g s ≤ 16)
    (hterm : maximumValue ops self (fuel + 1) row column ps board = some ret) :
    ∃ vals : List Int,
      List.Forall₂
        (fun child v => ∀ r c : Int, valueOf (minimumValue ops self fuel r c ps child) = some v)
        (getSuccessors ops self ps board) vals ∧
      (∀ v ∈ vals, v ≤ ret.value) ∧
      ∃ (k : Nat) (child : OthelloBoard G),
        (getSuccessors ops self ps board)[k]? = some child ∧ vals[k]? = some ret.value ∧
        (∀ (k' : Nat) (v : Int), k' < k → vals[k']? = some v → v < ret.value) ∧
        ret.row = child.getRow ∧ ret.column = child.getColumn := by
  have hbv := boardVectorOf_searched ops self ps board hps
  have := maximumValue_first_greatest ops self fuel row column ps board ret
    (by rw [hbv]; exact hne) hcount hterm
  rw [hbv] at this
  exact this

/-- Witness of C8: the agent 'X' on a position whose three successors are worth 4, 6
and 4; the routine returns 6 and the tag (row 1, column 0) of the second successor. -/
theorem maximumValue_greatest_first_witness :
    maximumValue Othello.ops ⟨'X'⟩ 3 7 9 'X' (Othello.midgame 'X' 'O') = some ⟨6, 1, 0⟩ ∧
    ∃ vals : List Int,
      List.Forall₂
        (fun child v => ∀ r c : Int,
          valueOf (minimumValue Othello.ops ⟨'X'⟩ 2 r c 'X' child) = some v)
        (getSuccessors Othello.ops ⟨'X'⟩ 'X' (Othello.midgame 'X' 'O')) vals ∧
      (∀ v ∈ vals, v ≤ (⟨6, 1, 0⟩ : Ret).value) ∧
      ∃ (k : Nat) (child : OthelloBoard Othello.Grid),
        (getSuccessors Othello.ops ⟨'X'⟩ 'X' (Othello.midgame 'X' 'O'))[k]? = some child ∧
        vals[k]? = some (⟨6, 1, 0⟩ : Ret).value ∧
        (∀ (k' : Nat) (v : Int), k' < k → vals[k']? = some v → v < (⟨6, 1, 0⟩ : Ret).value) ∧
        (⟨6, 1, 0⟩ : Ret).row = child.getRow ∧ (⟨6, 1, 0⟩ : Ret).column = child.getColumn :=
  ⟨by decide,
    maximumValue_greatest_first Othello.ops ⟨'X'⟩ 2 7 9 'X' (Othello.midgame 'X' 'O')
      ⟨6, 1, 0⟩ (Or.inl rfl) (fun h => absurd (congrArg List.length h) (by decide))
      Othello.count_score_le (by decide)⟩

/-- C9 fails on the code: on the corner position the only successor for 'X' has the tag
(row 0, column 2) and the value 3, so the least successor value is 3, yet `minimumValue`
returns 32767 and writes row 0 and column 0. -/
theorem minimumValue_not_least :
    (getSuccessors Othello.ops ⟨'X'⟩ 'X' (Othello.corner 'X' 'O')).map
        (fun child => (valueOf (minimumValue Othello.ops ⟨'X'⟩ 4 7 9 'X' child),
          child.getRow, child.getColumn)) = [(some 3, 0, 2)] ∧
      minimumValue Othello.ops ⟨'X'⟩ 5 7 9 'X' (Othello.corner 'X' 'O')
        = some ⟨32767, 0, 0⟩ := by
  decide

/-- C10, as the code has it: for an agent whose symbol is one of the board's two symbols,
`getUtility` is the agent's piece count minus the opponent's when the agent's symbol is
the player-1 symbol, and the opponent's piece count minus the agent's otherwise. -/
theorem getUtility_relative_to_agent (ops : BoardOps G) (self : MinimaxPlayer)
    (board : OthelloBoard G)
    (hsym : self.symbol = ops.get_p1_symbol board.grid ∨
      self.symbol = ops.get_p2_symbol board.grid) :
    getUtility ops self board
      = if self.symbol = ops.get_p1_symbol board.grid then
          (ops.count_score board.grid self.symbol : Int)
            - (ops.count_score board.grid (opponentSymbol ops self board) : Int)
        else
          (ops.count_score board.grid (opponentSymbol ops self board) : Int)
            - (ops.count_score board.grid self.symbol : Int) := by
  unfold getUtility opponentSymbol
  by_cases h1 : self.symbol = ops.get_p1_symbol board.grid
  · rw [if_pos h1, if_pos h1, h1]
  · rw [if_neg h1, if_neg h1, hsym.resolve_left h1]

/-- Witness of C10 as amended: the agent 'O' as player 2 on a board with three pieces of
'X' and none of 'O'. -/
theorem getUtility_relative_to_agent_witness :
    getUtility Othello.ops ⟨'O'⟩ (Othello.settled 'X' 'O')
      = if (⟨'O'⟩ : MinimaxPlayer).symbol
            = Othello.ops.get_p1_symbol (Othello.settled 'X' 'O').grid then
          (Othello.ops.count_score (Othello.settled 'X' 'O').grid
              (⟨'O'⟩ : MinimaxPlayer).symbol : Int)
            - (Othello.ops.count_score (Othello.settled 'X' 'O').grid
                (opponentSymbol Othello.ops ⟨'O'⟩ (Othello.settled 'X' 'O')) : Int)
        else
          (Othello.ops.count_score (Othello.settled 'X' 'O').grid
              (opponentSymbol Othello.ops ⟨'O'⟩ (Othello.settled 'X' 'O')) : Int)
            - (Othello.ops.count_score (Othello.settled 'X' 'O').grid
                (⟨'O'⟩ : MinimaxPlayer).symbol : Int) :=
  getUtility_relative_to_agent Othello.ops ⟨'O'⟩ (Othello.settled 'X' 'O') (Or.inr rfl)

/-- C10 as stated fails: for the agent 'O' as player 2 on a board with three pieces of 'X'
and none of 'O' (a leaf of the search: the evaluator returns its utility), the utility is
3, while the agent's piece count minus the opponent's is -3. -/
theorem getUtility_not_relative_to_agent :
    (⟨'O'⟩ : MinimaxPlayer).symbol
        = Othello.ops.get_p2_symbol (Othello.settled 'X' 'O').grid ∧
      Othello.ops.get_p1_symbol (Othello.settled 'X' 'O').grid
        ≠ Othello.ops.get_p2_symbol (Othello.settled 'X' 'O').grid ∧
      maximumValue Othello.ops ⟨'O'⟩ 1 7 9 'O' (Othello.settled 'X' 'O')
        = some ⟨getUtility Othello.ops ⟨'O'⟩ (Othello.settled 'X' 'O'), 7, 9⟩ ∧
      getUtility Othello.ops ⟨'O'⟩ (Othello.settled 'X' 'O') = 3 ∧
      (Othello.ops.count_score (Othello.settled 'X' 'O').grid
          (⟨'O'⟩ : MinimaxPlayer).symbol : Int)
        - (Othello.ops.count_score (Othello.settled 'X' 'O').grid
            (opponentSymbol Othello.ops ⟨'O'⟩ (Othello.settled 'X' 'O')) : Int) = -3 := by
  decide

/-! ## The minimizing routine on a board with successors -/

theorem getSuccessors_ne_nil_of_legal (ops : BoardOps G) (self : MinimaxPlayer) (s : Char)
    (board : OthelloBoard G)
    (hlegal : ∃ c r : Int, 0 ≤ c ∧ c < 4 ∧ 0 ≤ r ∧ r < 4 ∧
      ops.is_legal_move board.grid c r s = true) :
    getSuccessors ops self s board ≠ [] := by
  intro hnil
  obtain ⟨c, r, h1, h2, h3, h4, hl⟩ := hlegal
  rw [(getSuccessors_eq_nil_iff ops self s board).mp hnil c r h1 h2 h3 h4] at hl
  exact absurd hl (by decide)

/-- On a non-empty `boardVector`, whatever `minimumValue` returns has the tracked row in
both slots (lines 104-105). -/
theorem minimumValue_column_eq_row (ops : BoardOps G) (self : MinimaxPlayer) (fuel : Nat)
    (row column : Int) (ps : Char) (board : OthelloBoard G) (ret : Ret)
    (hne : boardVectorOf ops self ps board ≠ [])
    (h : minimumValue ops self fuel row column ps board = some ret) :
    ret.column = ret.row := by
  cases fuel with
  | zero => simp [minimumValue] at h
  | succ fuel =>
    rw [minimumValue_succ] at h
    have hlen : ¬ (boardVectorOf ops self ps board).length = 0 := fun h0 =>
      hne (List.length_eq_zero.mp h0)
    simp only [hlen, if_false, Option.map_eq_some'] at h
    obtain ⟨o, _, hret⟩ := h
    rw [← hret]

/-- C12: on a board where the searched symbol ('X' or 'O') has a legal cell, with piece
counts of at most 16 and a search that terminates, `minimumValue` returns the initial value
32767 of `theMin`, its loop ends with the tracked locals still at `(0, 0, 32767)`, and it
writes row 0 and column 0; and every value `minimumValue` returns, on any board, is the
utility of that board or 32767. -/
theorem minimumValue_returns_sentinel (ops : BoardOps G) (self : MinimaxPlayer) (fuel : Nat)
    (row column : Int) (ps : Char) (board : OthelloBoard G) (ret : Ret)
    (hps : ps = 'X' ∨ ps = 'O')
    (hlegal : ∃ c r : Int, 0 ≤ c ∧ c < 4 ∧ 0 ≤ r ∧ r < 4 ∧
      ops.is_legal_move board.grid c r ps = true)
    (hcount : ∀ (g : G) (s : Char), ops.count_score g s ≤ 16)
    (hterm : minimumValue ops self (fuel + 1) row column ps board = some ret) :
    ret = ⟨32767, 0, 0⟩ ∧
      (∃ out : Int × Int × Int × Int × Int,
        minimumLoop (fun r c b => minimumValue ops self fuel r c ps b)
          (getSuccessors ops self ps board) row column 0 0 32767 = some out ∧
        out.2.2 = (0, 0, 32767)) ∧
      (∀ (n : Nat) (r c : Int) (s : Char) (b : OthelloBoard G) (x : Ret),
        minimumValue ops self n r c s b = some x →
          x.value = getUtility ops self b ∨ x.value = 32767) := by
  have hbv := boardVectorOf_searched ops self ps board hps
  have hne : boardVectorOf ops self ps board ≠ [] := by
    rw [hbv]; exact getSuccessors_ne_nil_of_legal ops self ps board hlegal
  refine ⟨?_, ?_, ?_⟩
  · rcases minimumValue_cases ops self hcount _ row column ps board ret hterm with
      ⟨hnil, _⟩ | ⟨_, hr⟩
    · exact absurd hnil hne
    · exact hr
  · have h := hterm
    rw [minimumValue_succ] at h
    have hlen : ¬ (boardVectorOf ops self ps board).length = 0 := fun h0 =>
      hne (List.length_eq_zero.mp h0)
    simp only [hlen, if_false, Option.map_eq_some'] at h
    obtain ⟨o, ho, _⟩ := h
    rw [hbv] at ho
    refine ⟨o, ho, ?_⟩
    exact minimumLoop_stuck _ _ 32767
      (fun r c b x _ hcall => (minimumValue_value_bounds ops self hcount fuel r c ps b x hcall).2)
      row column 0 0 o ho
  · intro n r c s b x hx
    rcases minimumValue_cases ops self hcount n r c s b x hx with ⟨_, hr⟩ | ⟨_, hr⟩
    · left; rw [hr]
    · right; rw [hr]

/-- Witness of C12: the agent 'X' on the corner position, whose only successor is worth 3. -/
theorem minimumValue_returns_sentinel_witness :
    minimumValue Othello.ops ⟨'X'⟩ 3 7 9 'X' (Othello.corner 'X' 'O') = some ⟨32767, 0, 0⟩ ∧
      ((⟨32767, 0, 0⟩ : Ret) = ⟨32767, 0, 0⟩ ∧
      (∃ out : Int × Int × Int × Int × Int,
        minimumLoop (fun r c b => minimumValue Othello.ops ⟨'X'⟩ 2 r c 'X' b)
          (getSuccessors Othello.ops ⟨'X'⟩ 'X' (Othello.corner 'X' 'O')) 7 9 0 0 32767
            = some out ∧
        out.2.2 = (0, 0, 32767)) ∧
      (∀ (n : Nat) (r c : Int) (s : Char) (b : OthelloBoard Othello.Grid) (x : Ret),
        minimumValue Othello.ops ⟨'X'⟩ n r c s b = some x →
          x.value = getUtility Othello.ops ⟨'X'⟩ b ∨ x.value = 32767)) :=
  ⟨by decide,
    minimumValue_returns_sentinel Othello.ops ⟨'X'⟩ 2 7 9 'X' (Othello.corner 'X' 'O')
      ⟨32767, 0, 0⟩ (Or.inl rfl) ⟨2, 0, by decide⟩ Othello.count_score_le (by decide)⟩

/-- C14: for an agent whose symbol is one of the board's two symbols, on a board where the
symbol the search is started with has no legal cell, `get_move` returns with the `col` and
`row` slots holding exactly what the caller passed in. -/
theorem get_move_terminal_writes_nothing (ops : BoardOps G) (self : MinimaxPlayer)
    (fuel : Nat) (b : OthelloBoard G) (col row : Int)
    (hsym : self.symbol = ops.get_p1_symbol b.grid ∨ self.symbol = ops.get_p2_symbol b.grid)
    (hnone : ∀ c r : Int, 0 ≤ c → c < 4 → 0 ≤ r → r < 4 →
      ops.is_legal_move b.grid c r (searchSymbol ops self b) = false) :
    get_move ops self (fuel + 1) b col row = some (col, row) := by
  have hnil : getSuccessors ops self (searchSymbol ops self b) b = [] :=
    (getSuccessors_eq_nil_iff ops self _ b).mpr hnone
  have hps : searchSymbol ops self b = 'X' ∨ searchSymbol ops self b = 'O' := by
    unfold searchSymbol; split <;> simp
  have hbv : boardVectorOf ops self (searchSymbol ops self b) b = [] := by
    rw [boardVectorOf_searched ops self _ b hps]; exact hnil
  have hmax : maximumValue ops self (fuel + 1) row col (searchSymbol ops self b) b
      = some ⟨getUtility ops self b, row, col⟩ := by
    rw [maximumValue_succ, hbv]; rfl
  unfold get_move
  unfold searchSymbol at hmax
  by_cases h1 : self.symbol = ops.get_p1_symbol b.grid
  · rw [if_pos h1] at hmax ⊢
    rw [hmax]; rfl
  · rw [if_neg h1] at hmax
    rw [if_neg h1, if_pos (hsym.resolve_left h1), hmax]; rfl

/-- Witness of C14: the agent 'X' on a position without a legal move; the slots keep the
caller's 7 and 9. -/
theorem get_move_terminal_writes_nothing_witness :
    get_move Othello.ops ⟨'X'⟩ 1 (Othello.settled 'X' 'O') 7 9 = some (7, 9) :=
  get_move_terminal_writes_nothing Othello.ops ⟨'X'⟩ 0 (Othello.settled 'X' 'O') 7 9
    (Or.inl rfl)
    (by
      intro c r h1 h2 h3 h4
      interval_cases c <;> interval_cases r <;> rfl)

/-- C17: on a board with at least one successor for the searched symbol, when
`minimumValue` returns, its column output equals its row output. -/
theorem minimumValue_column_output_is_row (ops : BoardOps G) (self : MinimaxPlayer)
    (fuel : Nat) (row column : Int) (ps : Char) (board : OthelloBoard G) (ret : Ret)
    (hps : ps = 'X' ∨ ps = 'O')
    (hne : getSuccessors ops self ps board ≠ [])
    (hterm : minimumValue ops self fuel row column ps board = some ret) :
    ret.column = ret.row :=
  minimumValue_column_eq_row ops self fuel row column ps board ret
    (by rw [boardVectorOf_searched ops self ps board hps]; exact hne) hterm

/-- Witness of C17: the agent 'X' on the opening position, entered with 7 and 9 in the
slots. -/
theorem minimumValue_column_output_is_row_witness :
    minimumValue Othello.ops ⟨'X'⟩ 5 7 9 'X' (Othello.opening 'X' 'O') = some ⟨32767, 0, 0⟩ ∧
      (⟨32767, 0, 0⟩ : Ret).column = (⟨32767, 0, 0⟩ : Ret).row :=
  ⟨by decide,
    minimumValue_column_output_is_row Othello.ops ⟨'X'⟩ 5 7 9 'X' (Othello.opening 'X' 'O')
      ⟨32767, 0, 0⟩ (Or.inl rfl) (fun h => absurd (congrArg List.length h) (by decide))
      (by decide)⟩

/-! ## Scoring each successor once -/

theorem maximumLoopOnce_eq_minimumLoopOnce (call : Int → Int → OthelloBoard G → Option Ret)
    (l : List (OthelloBoard G)) (r c a b m : Int) :
    maximumLoopOnce call l r c a b m = minimumLoopOnce call l r c a b m := by
  induction l generalizing r c a b m with
  | nil => rfl
  | cons child rest ih =>
    simp only [maximumLoopOnce, minimumLoopOnce, ih]

/-- With a slot-free callee the single-call loop and the loop of the source end with the
same tracked locals, whatever the slots held before either loop. -/
theorem minimumLoopOnce_tracked (call : Int → Int → OthelloBoard G → Option Ret)
    (hfree : SlotFree call) (l : List (OthelloBoard G)) (r c r' c' a b m : Int) :
    (minimumLoopOnce call l r c a b m).map (fun o => o.2.2)
      = (minimumLoop call l r' c' a b m).map (fun o => o.2.2) := by
  induction l generalizing r c r' c' a b m with
  | nil => rfl
  | cons child rest ih =>
    have h1 := hfree r c r' c' child
    simp only [minimumLoopOnce, minimumLoop]
    cases e1 : call r c child with
    | none =>
      cases e1' : call r' c' child with
      | none => rfl
      | some r1' => rw [e1, e1'] at h1; simp [valueOf] at h1
    | some r1 =>
      cases e1' : call r' c' child with
      | none => rw [e1, e1'] at h1; simp [valueOf] at h1
      | some r1' =>
        rw [e1, e1'] at h1
        have hv : r1.value = r1'.value := by simpa [valueOf] using h1
        simp only [hv]
        by_cases hgt : r1'.value > m
        · simp only [hgt, if_true]
          have h2 := hfree r' c' r1'.row r1'.column child
          rw [e1'] at h2
          cases e2' : call r1'.row r1'.column child with
          | none => rw [e2'] at h2; simp [valueOf] at h2
          | some r2' =>
            rw [e2'] at h2
            have hv2 : r1'.value = r2'.value := by simpa [valueOf] using h2
            simp only [← hv2]
            exact ih _ _ _ _ _ _ _
        · simp only [hgt, if_false]
          exact ih _ _ _ _ _ _ _

theorem minimumValueOnce_succ (ops : BoardOps G) (self : MinimaxPlayer) (fuel : Nat)
    (row column : Int) (ps : Char) (board : OthelloBoard G) :
    minimumValueOnce ops self (fuel + 1) row column ps board
      = if (boardVectorOf ops self ps board).length = 0 then
          some ⟨getUtility ops self board, row, column⟩
        else
          (minimumLoopOnce (fun r c b => minimumValueOnce ops self fuel r c ps b)
            (boardVectorOf ops self ps board) row column 0 0 32767).map
              fun o => ⟨o.2.2.2.2, o.2.2.1, o.2.2.1⟩ := by
  simp only [minimumValueOnce, boardVectorOf]
  generalize (if ps = 'O' then getSuccessors ops self 'O' board
    else if ps = 'X' then getSuccessors ops self 'X' board else []) = bv
  by_cases h : bv.length = 0
  · simp only [h, if_true]
  · simp only [h, if_false]
    generalize minimumLoopOnce (fun r c b => minimumValueOnce ops self fuel r c ps b) bv
      row column 0 0 32767 = o
    cases o <;> rfl

theorem maximumValueOnce_succ (ops : BoardOps G) (self : MinimaxPlayer) (fuel : Nat)
    (row column : Int) (ps : Char) (board : OthelloBoard G) :
    maximumValueOnce ops self (fuel + 1) row column ps board
      = if (boardVectorOf ops self ps board).length = 0 then
          some ⟨getUtility ops self board, row, column⟩
        else
          (minimumLoopOnce (fun r c b => minimumValueOnce ops self fuel r c ps b)
            (boardVectorOf ops self ps board) row column 0 0 (-32767)).map
              fun o => ⟨o.2.2.2.2, o.2.2.1, o.2.2.2.1⟩ := by
  simp only [maximumValueOnce, boardVectorOf, maximumLoopOnce_eq_minimumLoopOnce]
  generalize (if ps = 'O' then getSuccessors ops self 'O' board
    else if ps = 'X' then getSuccessors ops self 'X' board else []) = bv
  by_cases h : bv.length = 0
  · simp only [h, if_true]
  · simp only [h, if_false]
    generalize minimumLoopOnce (fun r c b => minimumValueOnce ops self fuel r c ps b) bv
      row column 0 0 (-32767) = o
    cases o <;> rfl

theorem minimumValueOnce_eq (ops : BoardOps G) (self : MinimaxPlayer) (fuel : Nat)
    (row column : Int) (ps : Char) (board : OthelloBoard G) :
    minimumValueOnce ops self fuel row column ps board
      = minimumValue ops self fuel row column ps board := by
  induction fuel generalizing row column board with
  | zero => rfl
  | succ fuel ih =>
    rw [minimumValueOnce_succ, minimumValue_succ]
    by_cases hlen : (boardVectorOf ops self ps board).length = 0
    · simp only [hlen, if_true]
    · simp only [hlen, if_false]
      have hcall : (fun r c b => minimumValueOnce ops self fuel r c ps b)
          = (fun r c b => minimumValue ops self fuel r c ps b) := by
        funext r c b; exact ih r c b
      rw [hcall]
      have h := minimumLoopOnce_tracked _ (minimumValue_slotFree ops self fuel ps)
        (boardVectorOf ops self ps board) row column row column 0 0 32767
      have h2 := congrArg
        (Option.map fun t : Int × Int × Int => (⟨t.2.2, t.1, t.1⟩ : Ret)) h
      simpa only [Option.map_map] using h2

theorem maximumValueOnce_eq (ops : BoardOps G) (self : MinimaxPlayer) (fuel : Nat)
    (row column : Int) (ps : Char) (board : OthelloBoard G) :
    maximumValueOnce ops self fuel row column ps board
      = maximumValue ops self fuel row column ps board := by
  cases fuel with
  | zero => rfl
  | succ fuel =>
    rw [maximumValueOnce_succ, maximumValue_succ]
    by_cases hlen : (boardVectorOf ops self ps board).length = 0
    · simp only [hlen, if_true]
    · simp only [hlen, if_false]
      have hcall : (fun r c b => minimumValueOnce ops self fuel r c ps b)
          = (fun r c b => minimumValue ops self fuel r c ps b) := by
        funext r c b; exact minimumValueOnce_eq ops self fuel r c ps b
      rw [hcall]
      have h := minimumLoopOnce_tracked _ (minimumValue_slotFree ops self fuel ps)
        (boardVectorOf ops self ps board) row column row column 0 0 (-32767)
      have h2 := congrArg
        (Option.map fun t : Int × Int × Int => (⟨t.2.2, t.1, t.2.1⟩ : Ret)) h
      simpa only [Option.map_map] using h2

/-- C16: the variants of `minimumValue` and `maximumValue` that score each successor once
and use the stored result for the comparison and for the tracked value agree with the
routines of the source under every call-depth budget, on every board and symbol and for
every content of the slots on entry: either both run out of the budget, or both return the
same value and leave the same row and column in the slots. -/
theorem scoring_once_agrees (ops : BoardOps G) (self : MinimaxPlayer) (fuel : Nat)
    (row column : Int) (ps : Char) (board : OthelloBoard G) :
    minimumValueOnce ops self fuel row column ps board
        = minimumValue ops self fuel row column ps board ∧
      maximumValueOnce ops self fuel row column ps board
        = maximumValue ops self fuel row column ps board :=
  ⟨minimumValueOnce_eq ops self fuel row column ps board,
    maximumValueOnce_eq ops self fuel row column ps board⟩

/-! ## What a successor is, and which calls `get_move` gives rise to -/

/-- A successor is the parent with one move of the agent's symbol played on the cell of
its tag, and nothing else changed but the tag. -/
theorem mem_getSuccessors_play (ops : BoardOps G) (self : MinimaxPlayer) (s : Char)
    (board child : OthelloBoard G) (h : child ∈ getSuccessors ops self s board) :
    child = ((board.play ops child.getColumn child.getRow self.symbol).setColumn
      child.getColumn).setRow child.getRow := by
  rw [getSuccessors_eq] at h
  obtain ⟨c, _, rfl⟩ := List.mem_map.mp h
  rfl

theorem searchSymbol_cases (ops : BoardOps G) (self : MinimaxPlayer) (b : OthelloBoard G) :
    searchSymbol ops self b = 'X' ∨ searchSymbol ops self b = 'O' := by
  unfold searchSymbol; split <;> simp

theorem forall₂_getElem? {α β : Type} {R : α → β → Prop} {l₁ : List α} {l₂ : List β}
    (h : List.Forall₂ R l₁ l₂) (i : Nat) (a : α) (ha : l₁[i]? = some a) :
    ∃ b, l₂[i]? = some b ∧ R a b := by
  induction h generalizing i with
  | nil => simp at ha
  | cons hab _ ih =>
    cases i with
    | zero =>
      simp only [List.getElem?_cons_zero, Option.some.injEq] at ha
      subst ha
      exact ⟨_, List.getElem?_cons_zero, hab⟩
    | succ i =>
      simp only [List.getElem?_cons_succ] at ha ⊢
      exact ih i ha

theorem hasLegalCell_eq_true_iff (ops : BoardOps G) (self : MinimaxPlayer) (s : Char)
    (board : OthelloBoard G) :
    hasLegalCell ops s board = true ↔ getSuccessors ops self s board ≠ [] := by
  rw [getSuccessors_eq]
  unfold hasLegalCell
  simp only [List.any_eq_true, ne_eq, List.map_eq_nil_iff, List.filter_eq_nil_iff, not_forall,
    not_not, exists_prop]

theorem hasLegalCell_of_legal (ops : BoardOps G) (s : Char) (board : OthelloBoard G)
    (hlegal : ∃ c r : Int, 0 ≤ c ∧ c < 4 ∧ 0 ≤ r ∧ r < 4 ∧
      ops.is_legal_move board.grid c r s = true) :
    hasLegalCell ops s board = true :=
  (hasLegalCell_eq_true_iff ops ⟨s⟩ s board).mpr
    (getSuccessors_ne_nil_of_legal ops ⟨s⟩ s board hlegal)

/-- With piece counts of at most 16, the value `minimumValue` gives a board for 'X' or 'O'
is 32767 when the symbol has a legal cell on it and its utility when not. -/
theorem minimumValue_value_eq (ops : BoardOps G) (self : MinimaxPlayer)
    (hcount : ∀ (g : G) (s : Char), ops.count_score g s ≤ 16)
    (fuel : Nat) (row column : Int) (ps : Char) (board : OthelloBoard G) (ret : Ret)
    (hps : ps = 'X' ∨ ps = 'O')
    (h : minimumValue ops self fuel row column ps board = some ret) :
    ret.value = if hasLegalCell ops ps board = true then 32767 else getUtility ops self board := by
  have hbv := boardVectorOf_searched ops self ps board hps
  rcases minimumValue_cases ops self hcount fuel row column ps board ret h with
    ⟨hnil, hr⟩ | ⟨hne, hr⟩
  · rw [hbv] at hnil
    have : ¬ hasLegalCell ops ps board = true := fun hl =>
      (hasLegalCell_eq_true_iff ops self ps board).mp hl hnil
    rw [if_neg this, hr]
  · rw [hbv] at hne
    rw [if_pos ((hasLegalCell_eq_true_iff ops self ps board).mpr hne), hr]

/-- C13: for an agent whose symbol is one of the board's two symbols, on a board where the
search symbol has a legal cell, with piece counts of at most 16 and a search that
terminates, the move `get_move` writes is the tag of a successor that is either the first
successor, in generation order, on which the same symbol still has a legal cell, or, when
no successor has one, the first successor whose utility is greatest among all
successors. -/
theorem get_move_choice (ops : BoardOps G) (self : MinimaxPlayer) (fuel : Nat)
    (b : OthelloBoard G) (col row : Int) (out : Int × Int)
    (hsym : self.symbol = ops.get_p1_symbol b.grid ∨ self.symbol = ops.get_p2_symbol b.grid)
    (hlegal : ∃ c r : Int, 0 ≤ c ∧ c < 4 ∧ 0 ≤ r ∧ r < 4 ∧
      ops.is_legal_move b.grid c r (searchSymbol ops self b) = true)
    (hcount : ∀ (g : G) (s : Char), ops.count_score g s ≤ 16)
    (hterm : get_move ops self fuel b col row = some out) :
    ∃ (k : Nat) (child : OthelloBoard G),
      (getSuccessors ops self (searchSymbol ops self b) b)[k]? = some child ∧
      out = tag child ∧
      ((hasLegalCell ops (searchSymbol ops self b) child = true ∧
          ∀ (k' : Nat) (ch : OthelloBoard G), k' < k →
            (getSuccessors ops self (searchSymbol ops self b) b)[k']? = some ch →
            hasLegalCell ops (searchSymbol ops self b) ch = false) ∨
        ((∀ ch ∈ getSuccessors ops self (searchSymbol ops self b) b,
            hasLegalCell ops (searchSymbol ops self b) ch = false) ∧
          (∀ ch ∈ getSuccessors ops self (searchSymbol ops self b) b,
            getUtility ops self ch ≤ getUtility ops self child) ∧
          ∀ (k' : Nat) (ch : OthelloBoard G), k' < k →
            (getSuccessors ops self (searchSymbol ops self b) b)[k']? = some ch →
            getUtility ops self ch < getUtility ops self child)) := by
  have hps := searchSymbol_cases ops self b
  generalize hpsdef : searchSymbol ops self b = ps at hps hlegal ⊢
  have hget : get_move ops self fuel b col row
      = (maximumValue ops self fuel row col ps b).map fun r => (r.column, r.row) := by
    rw [← hpsdef]
    unfold get_move searchSymbol
    by_cases h1 : self.symbol = ops.get_p1_symbol b.grid
    · rw [if_pos h1, if_pos h1]
    · rw [if_neg h1, if_pos (hsym.resolve_left h1), if_neg h1]
  rw [hget] at hterm
  cases fuel with
  | zero => simp [maximumValue] at hterm
  | succ fuel =>
    obtain ⟨ret, hmax, hout⟩ := Option.map_eq_some'.mp hterm
    have hbv := boardVectorOf_searched ops self ps b hps
    have hne : boardVectorOf ops self ps b ≠ [] := by
      rw [hbv]; exact getSuccessors_ne_nil_of_legal ops self ps b hlegal
    obtain ⟨vals, hall, hub, k, child, hk, hvk, hbefore, hrow, hcol⟩ :=
      maximumValue_first_greatest ops self fuel row col ps b ret hne hcount hmax
    rw [hbv] at hk hall
    -- the value of the successor at any index
    have hval : ∀ (i : Nat) (ch : OthelloBoard G),
        (getSuccessors ops self ps b)[i]? = some ch →
        vals[i]? = some (if hasLegalCell ops ps ch = true then 32767
          else getUtility ops self ch) := by
      intro i ch hi
      obtain ⟨v, hv, hR⟩ := forall₂_getElem? hall i ch hi
      obtain ⟨x, hx, hxv⟩ := valueOf_eq_some (hR 0 0)
      rw [hv, ← hxv, minimumValue_value_eq ops self hcount fuel 0 0 ps ch x hps hx]
    have hu : ∀ ch : OthelloBoard G, getUtility ops self ch ≤ 16 := fun ch =>
      (getUtility_bounds ops self ch hcount).2
    have hkval := hval k child hk
    rw [hvk, Option.some.injEq] at hkval
    refine ⟨k, child, hk, ?_, ?_⟩
    · rw [← hout]; unfold tag; rw [hrow, hcol]
    · by_cases hchild : hasLegalCell ops ps child = true
      · left
        rw [if_pos hchild] at hkval
        refine ⟨hchild, fun k' ch hlt hk' => ?_⟩
        have h1 := hbefore k' _ hlt (hval k' ch hk')
        by_contra hcon
        have hcon' : hasLegalCell ops ps ch = true := by simpa using hcon
        rw [if_pos hcon', hkval] at h1
        exact lt_irrefl _ h1
      · right
        rw [if_neg hchild] at hkval
        have hall_no : ∀ ch ∈ getSuccessors ops self ps b,
            hasLegalCell ops ps ch = false ∧
              getUtility ops self ch ≤ getUtility ops self child := by
          intro ch hmem
          obtain ⟨i, hi⟩ := List.getElem?_of_mem hmem
          have hle := hub _ (List.getElem?_mem (hval i ch hi))
          rw [hkval] at hle
          have := hu child
          by_cases hl : hasLegalCell ops ps ch = true
          · rw [if_pos hl] at hle; omega
          · rw [if_neg hl] at hle
            exact ⟨by simpa using hl, hle⟩
        refine ⟨fun ch hmem => (hall_no ch hmem).1, fun ch hmem => (hall_no ch hmem).2, ?_⟩
        intro k' ch hlt hk'
        have h1 := hbefore k' _ hlt (hval k' ch hk')
        have hno := (hall_no ch (List.getElem?_mem hk')).1
        rw [hno, hkval] at h1
        simpa using h1

/-- Witness of C13: the agent 'X' on a position whose three successors are all terminal,
with utilities 4, 6 and 4; `get_move` writes the tag (column 0, row 1) of the second. -/
theorem get_move_choice_witness :
    ∃ (k : Nat) (child : OthelloBoard Othello.Grid),
      (getSuccessors Othello.ops ⟨'X'⟩
        (searchSymbol Othello.ops ⟨'X'⟩ (Othello.midgame 'X' 'O'))
        (Othello.midgame 'X' 'O'))[k]? = some child ∧
      ((0, 1) : Int × Int) = tag child ∧
      ((hasLegalCell Othello.ops (searchSymbol Othello.ops ⟨'X'⟩ (Othello.midgame 'X' 'O'))
            child = true ∧
          ∀ (k' : Nat) (ch : OthelloBoard Othello.Grid), k' < k →
            (getSuccessors Othello.ops ⟨'X'⟩
              (searchSymbol Othello.ops ⟨'X'⟩ (Othello.midgame 'X' 'O'))
              (Othello.midgame 'X' 'O'))[k']? = some ch →
            hasLegalCell Othello.ops
              (searchSymbol Othello.ops ⟨'X'⟩ (Othello.midgame 'X' 'O')) ch = false) ∨
        ((∀ ch ∈ getSuccessors Othello.ops ⟨'X'⟩
              (searchSymbol Othello.ops ⟨'X'⟩ (Othello.midgame 'X' 'O'))
              (Othello.midgame 'X' 'O'),
            hasLegalCell Othello.ops
              (searchSymbol Othello.ops ⟨'X'⟩ (Othello.midgame 'X' 'O')) ch = false) ∧
          (∀ ch ∈ getSuccessors Othello.ops ⟨'X'⟩
              (searchSymbol Othello.ops ⟨'X'⟩ (Othello.midgame 'X' 'O'))
              (Othello.midgame 'X' 'O'),
            getUtility Othello.ops ⟨'X'⟩ ch ≤ getUtility Othello.ops ⟨'X'⟩ child) ∧
          ∀ (k' : Nat) (ch : OthelloBoard Othello.Grid), k' < k →
            (getSuccessors Othello.ops ⟨'X'⟩
              (searchSymbol Othello.ops ⟨'X'⟩ (Othello.midgame 'X' 'O'))
              (Othello.midgame 'X' 'O'))[k']? = some ch →
            getUtility Othello.ops ⟨'X'⟩ ch < getUtility Othello.ops ⟨'X'⟩ child)) :=
  get_move_choice Othello.ops ⟨'X'⟩ 3 (Othello.midgame 'X' 'O') 7 9 (0, 1)
    (Or.inl rfl) ⟨0, 1, by decide⟩ Othello.count_score_le (by decide)

/-! ## Termination on a board that fills up -/

theorem countP_lt_countP {α : Type} (p q : α → Bool) (l : List α)
    (himp : ∀ x ∈ l, p x = true → q x = true) (a : α) (ha : a ∈ l)
    (hq : q a = true) (hp : p a = false) : l.countP p < l.countP q := by
  induction l with
  | nil => simp at ha
  | cons x xs ih =>
    have hmono : xs.countP p ≤ xs.countP q :=
      List.countP_mono_left fun y hy hpy => himp y (List.mem_cons_of_mem _ hy) hpy
    rcases List.mem_cons.mp ha with rfl | hmem
    · rw [List.countP_cons_of_neg p xs (by rw [hp]; decide), List.countP_cons_of_pos q xs hq]
      omega
    · have hlt := ih (fun y hy hpy => himp y (List.mem_cons_of_mem _ hy) hpy) hmem
      by_cases hpx : p x = true
      · rw [List.countP_cons_of_pos p xs hpx,
          List.countP_cons_of_pos q xs (himp x (List.mem_cons_self _ _) hpx)]
        omega
      · rw [List.countP_cons_of_neg p xs hpx]
        by_cases hqx : q x = true
        · rw [List.countP_cons_of_pos q xs hqx]; omega
        · rw [List.countP_cons_of_neg q xs hqx]; exact hlt

theorem emptyCells_le (empty : G → Int → Int → Bool) (g : G) : emptyCells empty g ≤ 16 :=
  (List.countP_le_length _).trans (by decide)

/-- A move on a cell in range that is legal for any symbol, played with the agent's
symbol, leaves fewer empty cells, when legal cells are empty and `play_move` occupies
the played cell and empties none. -/
theorem emptyCells_play_lt (ops : BoardOps G) (self : MinimaxPlayer)
    (empty : G → Int → Int → Bool)
    (hlegal : ∀ (g : G) (i j : Int) (s : Char), 0 ≤ i → i < 4 → 0 ≤ j → j < 4 →
      ops.is_legal_move g i j s = true → empty g i j = true)
    (hocc : ∀ (g : G) (i j : Int), 0 ≤ i → i < 4 → 0 ≤ j → j < 4 →
      empty (ops.play_move g i j self.symbol) i j = false)
    (hkeep : ∀ (g : G) (i j c r : Int), empty g c r = false →
      empty (ops.play_move g i j self.symbol) c r = false)
    (g : G) (i j : Int) (s : Char) (h1 : 0 ≤ i) (h2 : i < 4) (h3 : 0 ≤ j) (h4 : j < 4)
    (hl : ops.is_legal_move g i j s = true) :
    emptyCells empty (ops.play_move g i j self.symbol) < emptyCells empty g := by
  unfold emptyCells
  have hi : ((i.toNat : Nat) : Int) = i := Int.toNat_of_nonneg h1
  have hj : ((j.toNat : Nat) : Int) = j := Int.toNat_of_nonneg h3
  refine countP_lt_countP _ _ allCells ?_ (i.toNat, j.toNat)
    (mem_allCells _ (by omega) _ (by omega)) ?_ ?_
  · intro x _ hx
    by_contra hcon
    have hcon' : empty g (x.1 : Int) (x.2 : Int) = false := by simpa using hcon
    have := hkeep g i j _ _ hcon'
    simp only at hx
    rw [this] at hx
    exact absurd hx (by decide)
  · show empty g ((i.toNat : Nat) : Int) ((j.toNat : Nat) : Int) = true
    rw [hi, hj]; exact hlegal g i j s h1 h2 h3 h4 hl
  · show empty (ops.play_move g i j self.symbol) ((i.toNat : Nat) : Int)
      ((j.toNat : Nat) : Int) = false
    rw [hi, hj]; exact hocc g i j h1 h2 h3 h4

/-- If every move on a cell in range that is legal for some symbol, played with the
agent's symbol, decreases a measure of the position, `minimumValue` returns under every
budget above the measure. -/
theorem minimumValue_terminates_of_measure (ops : BoardOps G) (self : MinimaxPlayer)
    (μ : G → Nat)
    (hμ : ∀ (g : G) (i j : Int) (s : Char), 0 ≤ i → i < 4 → 0 ≤ j → j < 4 →
      ops.is_legal_move g i j s = true → μ (ops.play_move g i j self.symbol) < μ g)
    (fuel : Nat) (row column : Int) (ps : Char) (board : OthelloBoard G)
    (hfuel : μ board.grid < fuel) :
    (minimumValue ops self fuel row column ps board).isSome = true := by
  induction fuel generalizing row column board with
  | zero => omega
  | succ fuel ih =>
    rw [minimumValue_succ]
    by_cases hlen : (boardVectorOf ops self ps board).length = 0
    · simp only [hlen, if_true, Option.isSome_some]
    · simp only [hlen, if_false, Option.isSome_map']
      refine minimumLoop_isSome _ _ (fun r c b hb => ?_) _ _ _ _ _
      have hmem := mem_boardVectorOf ops self ps board b hb
      obtain ⟨h1, h2, h3, h4, hl⟩ := mem_getSuccessors_legal ops self ps board b hmem
      have hg : b.grid = ops.play_move board.grid b.getColumn b.getRow self.symbol :=
        congrArg OthelloBoard.grid (mem_getSuccessors_play ops self ps board b hmem)
      have := hμ board.grid _ _ ps h1 h2 h3 h4 hl
      exact ih r c b (by rw [hg]; omega)

theorem maximumValue_terminates_of_measure (ops : BoardOps G) (self : MinimaxPlayer)
    (μ : G → Nat)
    (hμ : ∀ (g : G) (i j : Int) (s : Char), 0 ≤ i → i < 4 → 0 ≤ j → j < 4 →
      ops.is_legal_move g i j s = true → μ (ops.play_move g i j self.symbol) < μ g)
    (fuel : Nat) (row column : Int) (ps : Char) (board : OthelloBoard G)
    (hfuel : μ board.grid < fuel) :
    (maximumValue ops self fuel row column ps board).isSome = true := by
  cases fuel with
  | zero => omega
  | succ fuel =>
    rw [maximumValue_succ]
    by_cases hlen : (boardVectorOf ops self ps board).length = 0
    · simp only [hlen, if_true, Option.isSome_some]
    · simp only [hlen, if_false, Option.isSome_map']
      refine minimumLoop_isSome _ _ (fun r c b hb => ?_) _ _ _ _ _
      have hmem := mem_boardVectorOf ops self ps board b hb
      obtain ⟨h1, h2, h3, h4, hl⟩ := mem_getSuccessors_legal ops self ps board b hmem
      have hg : b.grid = ops.play_move board.grid b.getColumn b.getRow self.symbol :=
        congrArg OthelloBoard.grid (mem_getSuccessors_play ops self ps board b hmem)
      have := hμ board.grid _ _ ps h1 h2 h3 h4 hl
      exact minimumValue_terminates_of_measure ops self μ hμ fuel r c ps b (by rw [hg]; omega)

/-- C11: if the board collaborator accepts a move as legal only on an empty cell, and
`play_move` with the agent's symbol occupies the played cell and empties no cell, then
`minimumValue` and `maximumValue` return on every board and symbol, with a call depth
of at most one more than the number of empty cells of the input board (the call itself
and at most that many nested calls), hence of at most 17 since that number is at most
16; the symbol of the legality test is arbitrary and need not be the agent's. -/
theorem search_terminates_within_empty_cells (ops : BoardOps G) (self : MinimaxPlayer)
    (empty : G → Int → Int → Bool)
    (hlegal : ∀ (g : G) (i j : Int) (s : Char), 0 ≤ i → i < 4 → 0 ≤ j → j < 4 →
      ops.is_legal_move g i j s = true → empty g i j = true)
    (hocc : ∀ (g : G) (i j : Int), 0 ≤ i → i < 4 → 0 ≤ j → j < 4 →
      empty (ops.play_move g i j self.symbol) i j = false)
    (hkeep : ∀ (g : G) (i j c r : Int), empty g c r = false →
      empty (ops.play_move g i j self.symbol) c r = false)
    (row column : Int) (ps : Char) (board : OthelloBoard G) :
    emptyCells empty board.grid ≤ 16 ∧
      (minimumValue ops self (emptyCells empty board.grid + 1) row column ps board).isSome
        = true ∧
      (maximumValue ops self (emptyCells empty board.grid + 1) row column ps board).isSome
        = true ∧
      (minimumValue ops self 17 row column ps board).isSome = true ∧
      (maximumValue ops self 17 row column ps board).isSome = true := by
  have hμ := emptyCells_play_lt ops self empty hlegal hocc hkeep
  have hle := emptyCells_le empty board.grid
  exact ⟨hle,
    minimumValue_terminates_of_measure ops self _ hμ _ row column ps board (by omega),
    maximumValue_terminates_of_measure ops self _ hμ _ row column ps board (by omega),
    minimumValue_terminates_of_measure ops self _ hμ 17 row column ps board (by omega),
    maximumValue_terminates_of_measure ops self _ hμ 17 row column ps board (by omega)⟩

/-! ## The concrete board fills up -/

theorem Othello.getD_set_ne_empty (l : List Char) (k n : Nat) (s : Char)
    (hs : s ≠ Othello.EMPTY) (h : l.getD n Othello.EMPTY ≠ Othello.EMPTY) :
    (l.set k s).getD n Othello.EMPTY ≠ Othello.EMPTY := by
  rw [List.getD_eq_getElem?_getD] at h ⊢
  rw [List.getElem?_set]
  by_cases hk : k = n
  · subst hk
    by_cases hlt : k < l.length
    · simpa [hlt] using hs
    · exfalso
      apply h
      rw [List.getElem?_eq_none (by omega)]
      rfl
  · simpa [hk] using h

theorem Othello.set_cell_keeps (g : Othello.Grid) (i j : Int) (s : Char)
    (hs : s ≠ Othello.EMPTY) (c r : Int)
    (h : Othello.get_cell g c r ≠ Othello.EMPTY) :
    Othello.get_cell (Othello.set_cell g i j s) c r ≠ Othello.EMPTY :=
  Othello.getD_set_ne_empty _ _ _ s hs h

theorem Othello.flip_pieces_keeps (s : Char) (hs : s ≠ Othello.EMPTY) (dc dr : Int) (n : Nat)
    (g : Othello.Grid) (col row c r : Int)
    (h : Othello.get_cell g c r ≠ Othello.EMPTY) :
    Othello.get_cell (Othello.flip_pieces s dc dr n g col row) c r ≠ Othello.EMPTY := by
  induction n generalizing g col row with
  | zero => exact h
  | succ n ih =>
    simp only [Othello.flip_pieces]
    split
    · exact ih _ _ _ (Othello.set_cell_keeps g col row s hs c r h)
    · exact h

theorem Othello.play_move_keeps (g : Othello.Grid) (i j : Int) (s : Char)
    (hs : s ≠ Othello.EMPTY) (c r : Int)
    (h : Othello.get_cell (Othello.set_cell g i j s) c r ≠ Othello.EMPTY) :
    Othello.get_cell (Othello.play_move g i j s) c r ≠ Othello.EMPTY := by
  unfold Othello.play_move
  generalize Othello.set_cell g i j s = acc at h
  generalize Othello.directions = ds
  induction ds generalizing acc with
  | nil => exact h
  | cons d ds ih =>
    simp only [List.foldl_cons]
    apply ih
    split
    · exact Othello.flip_pieces_keeps s hs _ _ _ _ _ _ c r h
    · exact h

theorem Othello.legal_on_empty (g : Othello.Grid) (i j : Int) (s : Char)
    (h : Othello.ops.is_legal_move g i j s = true) : Othello.is_cell_empty g i j = true := by
  have h' : Othello.is_legal_move g i j s = true := h
  unfold Othello.is_legal_move at h'
  simp only [Bool.and_eq_true] at h'
  exact h'.1.2

theorem Othello.play_move_occupies (g : Othello.Grid) (i j : Int) (s : Char)
    (hs : s ≠ Othello.EMPTY) (h1 : 0 ≤ i) (h2 : i < 4) (h3 : 0 ≤ j) (h4 : j < 4) :
    Othello.is_cell_empty (Othello.ops.play_move g i j s) i j = false := by
  have hne : Othello.get_cell (Othello.play_move g i j s) i j ≠ Othello.EMPTY := by
    apply Othello.play_move_keeps g i j s hs
    show (g.cells.val.set (i.toNat + 4 * j.toNat) s).getD (i.toNat + 4 * j.toNat)
      Othello.EMPTY ≠ Othello.EMPTY
    rw [List.getD_eq_getElem?_getD, List.getElem?_set]
    have hlt : i.toNat + 4 * j.toNat < g.cells.val.length := by
      rw [g.cells.property]; omega
    rw [if_pos rfl, if_pos hlt]
    exact hs
  show (Othello.get_cell (Othello.play_move g i j s) i j == Othello.EMPTY) = false
  simpa using hne

theorem Othello.play_move_empties_none (g : Othello.Grid) (i j : Int) (s : Char)
    (hs : s ≠ Othello.EMPTY) (c r : Int) (h : Othello.is_cell_empty g c r = false) :
    Othello.is_cell_empty (Othello.ops.play_move g i j s) c r = false := by
  have h0 : Othello.get_cell g c r ≠ Othello.EMPTY := by
    unfold Othello.is_cell_empty at h
    simpa using h
  have hne : Othello.get_cell (Othello.play_move g i j s) c r ≠ Othello.EMPTY :=
    Othello.play_move_keeps g i j s hs c r (Othello.set_cell_keeps g i j s hs c r h0)
  show (Othello.get_cell (Othello.play_move g i j s) c r == Othello.EMPTY) = false
  simpa using hne

/-- Witness of C11: the agent 'O' searching for 'X' on the opening position of a board
registered with 'O' and 'X' (legality tested for 'X', moves played with 'O'): twelve
cells are empty, and both routines return within a call depth of thirteen. -/
theorem search_terminates_within_empty_cells_witness :
    emptyCells Othello.is_cell_empty (Othello.opening 'O' 'X').grid = 12 ∧
    (emptyCells Othello.is_cell_empty (Othello.opening 'O' 'X').grid ≤ 16 ∧
      (minimumValue Othello.ops ⟨'O'⟩
        (emptyCells Othello.is_cell_empty (Othello.opening 'O' 'X').grid + 1) 7 9 'X'
        (Othello.opening 'O' 'X')).isSome = true ∧
      (maximumValue Othello.ops ⟨'O'⟩
        (emptyCells Othello.is_cell_empty (Othello.opening 'O' 'X').grid + 1) 7 9 'X'
        (Othello.opening 'O' 'X')).isSome = true ∧
      (minimumValue Othello.ops ⟨'O'⟩ 17 7 9 'X' (Othello.opening 'O' 'X')).isSome = true ∧
      (maximumValue Othello.ops ⟨'O'⟩ 17 7 9 'X' (Othello.opening 'O' 'X')).isSome = true) :=
  ⟨by decide,
    search_terminates_within_empty_cells Othello.ops ⟨'O'⟩ Othello.is_cell_empty
      (fun g i j s _ _ _ _ h => Othello.legal_on_empty g i j s h)
      (fun g i j h1 h2 h3 h4 => Othello.play_move_occupies g i j 'O' (by decide) h1 h2 h3 h4)
      (fun g i j c r h => Othello.play_move_empties_none g i j 'O' (by decide) c r h)
      7 9 'X' (Othello.opening 'O' 'X')⟩

/-! ## Concrete instances of the unconditional claims -/

/-- Instance of C16: on the position with successors worth 4, 6 and 4 the variant of
`maximumValue` returns 6 with row 1 and column 0, as the routine of the source does. -/
theorem scoring_once_agrees_witness :
    maximumValueOnce Othello.ops ⟨'X'⟩ 3 7 9 'X' (Othello.midgame 'X' 'O') = some ⟨6, 1, 0⟩ ∧
      (minimumValueOnce Othello.ops ⟨'X'⟩ 3 7 9 'X' (Othello.midgame 'X' 'O')
          = minimumValue Othello.ops ⟨'X'⟩ 3 7 9 'X' (Othello.midgame 'X' 'O') ∧
        maximumValueOnce Othello.ops ⟨'X'⟩ 3 7 9 'X' (Othello.midgame 'X' 'O')
          = maximumValue Othello.ops ⟨'X'⟩ 3 7 9 'X' (Othello.midgame 'X' 'O')) :=
  ⟨by decide, scoring_once_agrees Othello.ops ⟨'X'⟩ 3 7 9 'X' (Othello.midgame 'X' 'O')⟩

end Minimax
